import Mathlib

/-!
Verification development for the schedule-extraction core of `bot.py`
(`ig25_schedule_bot`).  The Python source is shallowly embedded: each
Python function is translated into an executable Lean definition over
`String` / `List Char`, and the claims about the program are settled as
theorems about these definitions.

Modelling notes, valid throughout the file:
* Python `str.strip()` strips Unicode whitespace; `isPySpace` lists the
  whitespace code points relevant here (ASCII whitespace, the C1 controls
  stripped by Python, NBSP and the Unicode space block).
* Python `str.splitlines()` splits on the line-break code points listed in
  `isLineBreak`, treating `"\r\n"` as a single break and producing no final
  empty line for a trailing break.
* Python `str.lower()` / `str.upper()` are modelled for ASCII and the
  Cyrillic alphabet (the only scripts occurring in the program's data).
* The regex word-boundary `\b` is modelled by `isWordChar`, covering ASCII
  alphanumerics, `_` and the Cyrillic block.
* `csv.reader` with the default dialect is modelled as a total
  splitlines-and-split-on-comma function; it is exact on texts made of
  `csvPlain` characters and `'\n'` line breaks whose fields stay below the
  csv field-size limit (an empty line gives an empty row, as `csv.reader`
  does), and theorems quantifying over raw texts restrict themselves to
  that domain.
-/

namespace IGBot

/-- Whitespace in the sense of Python's `str.strip` / `\s`. -/
def isPySpace (c : Char) : Bool :=
  c = ' ' || c = '\t' || c = '\n' || c = '\r' || c = '\x0b' || c = '\x0c' ||
  c = '\x1c' || c = '\x1d' || c = '\x1e' || c = '\x1f' || c = '\x85' ||
  c = '\xa0' || c = '\u1680' || c = '\u2000' || c = '\u2001' || c = '\u2002' ||
  c = '\u2003' || c = '\u2004' || c = '\u2005' || c = '\u2006' || c = '\u2007' ||
  c = '\u2008' || c = '\u2009' || c = '\u200a' || c = '\u2028' || c = '\u2029' ||
  c = '\u202f' || c = '\u205f' || c = '\u3000'

/-- Line-break characters in the sense of Python's `str.splitlines`. -/
def isLineBreak (c : Char) : Bool :=
  c = '\n' || c = '\r' || c = '\x0b' || c = '\x0c' ||
  c = '\x1c' || c = '\x1d' || c = '\x1e' || c = '\x85' ||
  c = '\u2028' || c = '\u2029'

/-- Drop trailing Python-whitespace characters. -/
def dropTrail : List Char → List Char
  | [] => []
  | c :: cs =>
    match dropTrail cs with
    | [] => if isPySpace c then [] else [c]
    | r => c :: r

/-- Python `str.strip()` on a character list. -/
def stripChars (l : List Char) : List Char :=
  dropTrail (l.dropWhile isPySpace)

/-- Python `str.strip()`. -/
def pyStrip (s : String) : String :=
  ⟨stripChars s.data⟩

/-- Helper for `splitlinesPy`: `acc` holds the current (reversed) line; a
`"\r\n"` pair counts as one break, and a trailing break produces no final
empty line. -/
def splitAux (acc : List Char) : List Char → List (List Char)
  | [] => [acc.reverse]
  | c :: cs =>
    if isLineBreak c then
      match cs with
      | [] => [acc.reverse]
      | d :: cs2 =>
        if c = '\r' ∧ d = '\n' then
          if cs2 = [] then [acc.reverse] else acc.reverse :: splitAux [] cs2
        else acc.reverse :: splitAux [] (d :: cs2)
    else splitAux (c :: acc) cs

/-- Python `str.splitlines()` on a character list. -/
def splitlinesPy (l : List Char) : List (List Char) :=
  match l with
  | [] => []
  | l => splitAux [] l

/-- `"\n".join` on character lists. -/
def joinNL : List (List Char) → List Char
  | [] => []
  | [l] => l
  | l :: ls => l ++ '\n' :: joinNL ls

/-- `"\n".join` on strings. -/
def joinNLS (ls : List String) : String :=
  ⟨joinNL (ls.map String.data)⟩

/-- Python `str.lower()`, modelled for ASCII and Cyrillic. -/
def pyLowerChar (c : Char) : Char :=
  if 'A' ≤ c ∧ c ≤ 'Z' then Char.ofNat (c.toNat + 32)
  else if 0x410 ≤ c.toNat ∧ c.toNat ≤ 0x42F then Char.ofNat (c.toNat + 0x20)
  else if c.toNat = 0x401 then Char.ofNat 0x451
  else c

/-- Python `str.upper()`, modelled for ASCII and Cyrillic. -/
def pyUpperChar (c : Char) : Char :=
  if 'a' ≤ c ∧ c ≤ 'z' then Char.ofNat (c.toNat - 32)
  else if 0x430 ≤ c.toNat ∧ c.toNat ≤ 0x44F then Char.ofNat (c.toNat - 0x20)
  else if c.toNat = 0x451 then Char.ofNat 0x401
  else c

/-- Python `str.lower()` on a string. -/
def pyLower (s : String) : String :=
  ⟨s.data.map pyLowerChar⟩

/-- `norm` from bot.py: replace NBSP by a space and strip. -/
def norm (s : String) : String :=
  ⟨stripChars (s.data.map (fun c => if c = '\xa0' then ' ' else c))⟩

/-- Collapse runs of two or more literal spaces to a single space
(the `re.sub(r"[ ]{2,}", " ", s)` step of `_compact_spaces`);
the boolean records whether the previous character was a space. -/
def squeezeAux : Bool → List Char → List Char
  | _, [] => []
  | prevSp, c :: cs =>
    if c = ' ' then
      if prevSp then squeezeAux true cs else ' ' :: squeezeAux true cs
    else c :: squeezeAux false cs

/-- `_compact_spaces` from bot.py: NBSP/TAB to space, collapse space runs, strip. -/
def compact_spaces (s : String) : String :=
  ⟨stripChars (squeezeAux false
    (s.data.map (fun c => if c = '\xa0' ∨ c = '\t' then ' ' else c)))⟩

/-- `_TAG_ONLY` from bot.py. -/
def TAG_ONLY : List String := ["пр", "лек"]

/-- Replace the last element of a list (Python's `out[-1] = ...`). -/
def updLast (f : String → String) : List String → List String
  | [] => []
  | [x] => [f x]
  | x :: xs => x :: updLast f xs

/-- One iteration of the `_glue_short_tags` loop. -/
def glueTagStep (out : List String) (ln0 : String) : List String :=
  let ln := compact_spaces ln0
  if ln = "" then out
  else
    let low := pyLower ln
    if out ≠ [] ∧ low ∈ TAG_ONLY then
      updLast (fun p => compact_spaces (p ++ " " ++ ln)) out
    else if out ≠ [] ∧ (low = "пр" ∨ low = "лек") then
      updLast (fun p => compact_spaces (p ++ " " ++ ln)) out
    else out ++ [ln]

/-- `_glue_short_tags` from bot.py. -/
def glue_short_tags (lines : List String) : List String :=
  lines.foldl glueTagStep []

/-- Does the string start with `'/'`? -/
def startsSlash (s : String) : Bool :=
  match s.data with
  | '/' :: _ => true
  | _ => false

/-- Does the string start with `"/ "`? -/
def startsSlashSpace (s : String) : Bool :=
  match s.data with
  | '/' :: ' ' :: _ => true
  | _ => false

/-- One iteration of the `_glue_pr_slash_lines` loop. -/
def glueSlashStep (out : List String) (raw : String) : List String :=
  let ln := compact_spaces raw
  if ln = "" then out
  else
    if out ≠ [] ∧ (startsSlash ln ∨ startsSlashSpace ln) then
      updLast (fun p => compact_spaces (p ++ " " ++ ln)) out
    else if out ≠ [] ∧ pyLower (out.getLastD "") ∈ TAG_ONLY ∧ startsSlash ln then
      updLast (fun p => compact_spaces (p ++ " " ++ ln)) out
    else out ++ [ln]

/-- `_glue_pr_slash_lines` from bot.py. -/
def glue_pr_slash_lines (lines : List String) : List String :=
  lines.foldl glueSlashStep []

/-- Is `n` a contiguous sublist of `h`?  (Python's `in` on strings.) -/
def hasSub (n : List Char) : List Char → Bool
  | [] => n.isEmpty
  | c :: t => n.isPrefixOf (c :: t) || hasSub n t

/-- Is a line boilerplate (contains "семестр" or "утверждаю" lower-cased)? -/
def boilerplate (l : String) : Bool :=
  hasSub "семестр".data (pyLower l).data || hasSub "утверждаю".data (pyLower l).data

/-- `_postprocess_cell_text` from bot.py: drop `'\r'`, split into stripped
non-empty lines, drop boilerplate lines, run both glue passes. -/
def postprocess_cell_text (cell_text : String) : List String :=
  let txt := cell_text.data.filter (fun c => c ≠ '\r')
  let raw_lines := (splitlinesPy txt).filterMap
    (fun l => let l' := stripChars l; if l' = [] then none else some (⟨l'⟩ : String))
  let cleaned := raw_lines.filter (fun l => !boilerplate l)
  glue_pr_slash_lines (glue_short_tags cleaned)

/-- Insert lines into a bucket, skipping lines already present
(the `if line not in bucket: bucket.append(line)` loop). -/
def addLines (bucket : List (List Char)) (lines : List (List Char)) : List (List Char) :=
  lines.foldl (fun b l => if l ∈ b then b else b ++ [l]) bucket

/-- `OrderedDict.setdefault` followed by the line loop: update the bucket of
key `k` in place, or append a new `(k, lines)` entry at the end. -/
def odInsert : List (List Char × List (List Char)) → List Char → List (List Char) →
    List (List Char × List (List Char))
  | [], k, lines => [(k, addLines [] lines)]
  | (k', b) :: rest, k, lines =>
    if k' = k then (k', addLines b lines) :: rest
    else (k', b) :: odInsert rest k lines

/-- The stripped non-empty lines of a text (the list comprehension
`[l.strip() for l in tx.splitlines() if l.strip()]`). -/
def pyLines (x : List Char) : List (List Char) :=
  (splitlinesPy x).filterMap
    (fun l => let l' := stripChars l; if l' = [] then none else some l')

/-- Lookup in the ordered-dictionary association list. -/
def lookupOd : List (List Char × List (List Char)) → List Char → Option (List (List Char))
  | [], _ => none
  | (k, b) :: rest, key => if k = key then some b else lookupOd rest key

/-- A line as stored in a merge bucket: non-empty, stripped, and free of
line breaks. -/
def goodLine (l : List Char) : Prop :=
  l ≠ [] ∧ stripChars l = l ∧ ∀ c ∈ l, isLineBreak c = false

/-- A well-formed ordered-dictionary entry: stripped non-empty key and a
non-empty duplicate-free bucket of good lines. -/
def goodEntry (p : List Char × List (List Char)) : Prop :=
  stripChars p.1 = p.1 ∧ p.1 ≠ [] ∧ p.2 ≠ [] ∧ p.2.Nodup ∧ ∀ l ∈ p.2, goodLine l

/-- The invariant of the merge fold: pairwise-distinct keys and well-formed
entries. -/
def InvOd (od : List (List Char × List (List Char))) : Prop :=
  (od.map Prod.fst).Nodup ∧ ∀ p ∈ od, goodEntry p

/-- One iteration of the `merge_items_by_time` loop. -/
def mergeStep (od : List (List Char × List (List Char))) (item : String × String) :
    List (List Char × List (List Char)) :=
  let t := stripChars item.1.data
  let x := stripChars item.2.data
  if t = [] ∨ x = [] then od
  else odInsert od t (pyLines x)

/-- `merge_items_by_time` from bot.py. -/
def merge_items_by_time (items : List (String × String)) : List (String × String) :=
  let od := items.foldl mergeStep []
  od.map (fun p => ((⟨p.1⟩ : String), (⟨joinNL p.2⟩ : String)))

/-- Is `c` a decimal digit (regex `\d`, ASCII)? -/
def isDig (c : Char) : Bool := '0' ≤ c && c ≤ '9'

/-- Word character for the regex `\b`, modelled for ASCII and Cyrillic. -/
def isWordChar (c : Char) : Bool :=
  c.isAlphanum || c = '_' || (0x400 ≤ c.toNat && c.toNat ≤ 0x4FF)

/-- Word boundary after a match: both regexes end with `\d`, a word
character, so the boundary holds iff the next character is absent or
non-word. -/
def endB : List Char → Bool
  | [] => true
  | c :: _ => !isWordChar c

/-- Hour/minute separator `[.:]` of `TIME_RE`. -/
def hmSep (c : Char) : Bool := c = '.' || c = ':'

/-- Range dash `[-–]` of `TIME_RE` (hyphen or en-dash; no em-dash). -/
def isDashTime (c : Char) : Bool := c = '-' || c = '–'

/-- The captured groups of a `TIME_RE` match: first hour and minutes, and
the optional second hour and minutes. -/
structure TimeGroups where
  h1 : List Char
  m1 : List Char
  tl : Option (List Char × List Char)
deriving DecidableEq, Repr

/-- Parse `[.:](\d{2})` then require a word boundary: the end of the
optional second time of `TIME_RE`. -/
def tailSepMin (h2 : List Char) : List Char → Option (List Char × List Char)
  | c :: a :: b :: rest =>
    if hmSep c && isDig a && isDig b && endB rest then some (h2, [a, b]) else none
  | _ => none

/-- The optional `\s*[-–]\s*(\d{1,2})[.:](\d{2})` tail of `TIME_RE`,
including the final word boundary; the second hour is greedy with
backtracking. -/
def timeTail (cs : List Char) : Option (List Char × List Char) :=
  match cs.dropWhile isPySpace with
  | c :: rest =>
    if isDashTime c then
      match rest.dropWhile isPySpace with
      | a :: b :: r2 =>
        if isDig a && isDig b then
          match tailSepMin [a, b] r2 with
          | some x => some x
          | none => if isDig a then tailSepMin [a] (b :: r2) else none
        else if isDig a then tailSepMin [a] (b :: r2) else none
      | _ => none
    else none
  | [] => none

/-- Parse the `(\d{2})` minutes then the optional tail or boundary of
`TIME_RE`. -/
def timeAfterSepT (h1 : List Char) : List Char → Option TimeGroups
  | a :: b :: rest =>
    if isDig a && isDig b then
      match timeTail rest with
      | some (h2, m2) => some ⟨h1, [a, b], some (h2, m2)⟩
      | none => if endB rest then some ⟨h1, [a, b], none⟩ else none
    else none
  | _ => none

/-- Parse the `[.:]` separator of `TIME_RE`. -/
def timeAfterH1 (h1 : List Char) : List Char → Option TimeGroups
  | c :: rest => if hmSep c then timeAfterSepT h1 rest else none
  | [] => none

/-- Try a `TIME_RE` match starting at the current position (the position is
already known to be a word boundary): greedy 1-or-2-digit hour with
backtracking. -/
def timeAt : List Char → Option TimeGroups
  | a :: b :: rest =>
    if isDig a then
      if isDig b then
        match timeAfterH1 [a, b] rest with
        | some g => some g
        | none => timeAfterH1 [a] (b :: rest)
      else timeAfterH1 [a] (b :: rest)
    else none
  | _ => none

/-- `TIME_RE.search`: scan left to right, trying `timeAt` at every word
boundary; `prevWord` records whether the preceding character is a word
character. -/
def searchTime (prevWord : Bool) : List Char → Option TimeGroups
  | [] => none
  | c :: cs =>
    match (if prevWord != isWordChar c then timeAt (c :: cs) else none) with
    | some g => some g
    | none => searchTime (isWordChar c) cs

/-- Numeric value of a digit string (Python `int`). -/
def digitsToNat (l : List Char) : Nat :=
  l.foldl (fun n c => 10 * n + (c.toNat - 48)) 0

/-- `normalize_time` from bot.py: normalize, search `TIME_RE`, and rebuild
`"H:MM"` or `"H:MM–H:MM"` with `int`-unpadded hours; if no match, return
the normalized input itself. -/
def normalize_time (s : String) : String :=
  let s' := norm s
  match searchTime false s'.data with
  | none => s'
  | some g =>
    match g.tl with
    | some (h2, m2) =>
      Nat.repr (digitsToNat g.h1) ++ ":" ++ (⟨g.m1⟩ : String) ++ "–" ++
      Nat.repr (digitsToNat h2) ++ ":" ++ (⟨m2⟩ : String)
    | none => Nat.repr (digitsToNat g.h1) ++ ":" ++ (⟨g.m1⟩ : String)

/-- Date separator (dot, hyphen or slash) of `DATE_RE`. -/
def dateSep (c : Char) : Bool := c = '.' || c = '-' || c = '/'

/-- The optional year tail (separator then 2-to-4-digit year) of `DATE_RE` including the
final word boundary; the year is greedy (4, then 3, then 2 digits). -/
def yearTail : List Char → Bool
  | c :: a :: b :: d :: e :: r4 =>
    dateSep c &&
    ((isDig a && isDig b && isDig d && isDig e && endB r4) ||
     (isDig a && isDig b && isDig d && endB (e :: r4)) ||
     (isDig a && isDig b && endB (d :: e :: r4)))
  | c :: a :: b :: d :: r3 =>
    dateSep c &&
    ((isDig a && isDig b && isDig d && endB r3) ||
     (isDig a && isDig b && endB (d :: r3)))
  | c :: a :: b :: r2 => dateSep c && isDig a && isDig b && endB r2
  | _ => false

/-- Parse the `(\d{1,2})` month then the optional year tail or boundary of
`DATE_RE`; the month is greedy with backtracking. -/
def dateAfterSepD (dd : List Char) : List Char → Option (List Char × List Char)
  | a :: b :: rest =>
    if isDig a then
      if isDig b then
        if yearTail rest || endB rest then some (dd, [a, b])
        else if yearTail (b :: rest) || endB (b :: rest) then some (dd, [a])
        else none
      else if yearTail (b :: rest) || endB (b :: rest) then some (dd, [a])
      else none
    else none
  | [a] => if isDig a then some (dd, [a]) else none
  | [] => none

/-- Parse the date separator of `DATE_RE`. -/
def dateAfterDD (dd : List Char) : List Char → Option (List Char × List Char)
  | c :: rest => if dateSep c then dateAfterSepD dd rest else none
  | [] => none

/-- Try a `DATE_RE` match starting at the current position: greedy
1-or-2-digit day with backtracking. -/
def dateAt : List Char → Option (List Char × List Char)
  | a :: b :: rest =>
    if isDig a then
      if isDig b then
        match dateAfterDD [a, b] rest with
        | some g => some g
        | none => dateAfterDD [a] (b :: rest)
      else dateAfterDD [a] (b :: rest)
    else none
  | _ => none

/-- `DATE_RE.search`, returning the day and month digit groups. -/
def searchDate (prevWord : Bool) : List Char → Option (List Char × List Char)
  | [] => none
  | c :: cs =>
    match (if prevWord != isWordChar c then dateAt (c :: cs) else none) with
    | some g => some g
    | none => searchDate (isWordChar c) cs

/-- Python `f"{n:02d}"` for the values produced here. -/
def pad2 (n : Nat) : String :=
  if n < 10 then "0" ++ Nat.repr n else Nat.repr n

/-- `parse_ddmm` from bot.py. -/
def parse_ddmm (text : String) : Option String :=
  match searchDate false text.data with
  | none => none
  | some (dd, mm) => some (pad2 (digitsToNat dd) ++ "." ++ pad2 (digitsToNat mm))

/-- `norm_group` from bot.py: normalize, unify dashes to a plain hyphen,
remove all whitespace, upper-case. -/
def norm_group (s : String) : String :=
  ⟨(((norm s).data.map (fun c => if c = '–' ∨ c = '—' then '-' else c)).filter
      (fun c => !isPySpace c)).map pyUpperChar⟩

/-- The error taxonomy of the pipeline: the `RuntimeError` raised when the
header labels are missing, and the `RuntimeError` carrying the sibling-group
hint when no group column matches. -/
inductive Err where
  | headerNotFound : Err
  | groupNotFound : List String → Err
deriving DecidableEq, Repr

/-- Decidable equality of `Except` results, used to evaluate the pipeline
on concrete inputs. -/
instance {ε α : Type} [DecidableEq ε] [DecidableEq α] : DecidableEq (Except ε α) := fun a b =>
  match a, b with
  | .error e, .error f => decidable_of_iff (e = f) (by simp)
  | .ok x, .ok y => decidable_of_iff (x = y) (by simp)
  | .error _, .ok _ => isFalse (fun h => Except.noConfusion h)
  | .ok _, .error _ => isFalse (fun h => Except.noConfusion h)

/-- The normalized, lower-cased cells of a row (the `low` list of
`find_header_and_group_cols`). -/
def lowRow (row : List String) : List String :=
  row.map (fun x => pyLower (norm x))

/-- Does a row qualify as the header row
(`"дата" in low and "часы" in low`)? -/
def headerQ (row : List String) : Prop :=
  "дата" ∈ lowRow row ∧ "часы" ∈ lowRow row

/-- The header condition is decidable (it is a conjunction of list
memberships). -/
instance (row : List String) : Decidable (headerQ row) :=
  decidable_of_iff ("дата" ∈ lowRow row ∧ "часы" ∈ lowRow row) Iff.rfl

/-- Python `list.index`: the index of the first occurrence. -/
def idxOfStr (s : String) : List String → Nat
  | [] => 0
  | x :: xs => if x = s then 0 else idxOfStr s xs + 1

/-- The header-scan loop of `find_header_and_group_cols`: first row (among
the rows passed in, counting from `i`) whose cells contain both labels;
returns the row index and the two column indices. -/
def findHeaderRow : Nat → List (List String) → Option (Nat × Nat × Nat)
  | _, [] => none
  | i, row :: rest =>
    let low := lowRow row
    if "дата" ∈ low ∧ "часы" ∈ low then
      some (i, idxOfStr "дата" low, idxOfStr "часы" low)
    else findHeaderRow (i + 1) rest

/-- Column indices of the cells of one row whose `norm_group` equals the
normalized group name. -/
def rowGroupCols (gNeed : String) (row : List String) : List Nat :=
  row.enum.filterMap (fun p => if norm_group p.2 = gNeed then some p.1 else none)

/-- Insertion step of insertion sort on `Nat`. -/
def sortNatsIns (n : Nat) : List Nat → List Nat
  | [] => [n]
  | m :: ms => if n ≤ m then n :: m :: ms else m :: sortNatsIns n ms

/-- Insertion sort on `Nat` (Python `sorted`). -/
def sortNats (l : List Nat) : List Nat := l.foldr sortNatsIns []

/-- The group-column scan of `find_header_and_group_cols`: all matching
column indices in rows `hi .. min (hi + 12) rows.length`, as a sorted set. -/
def group_cols_scan (rows : List (List String)) (hi : Nat) (gNeed : String) : List Nat :=
  sortNats ((((rows.drop hi).take 12).map (rowGroupCols gNeed)).flatten).dedup

/-- `find_header_and_group_cols` from bot.py.  The `GroupColumnNotFound`
error is raised by the caller, so an empty column list is returned as is. -/
def find_header_and_group_cols (rows : List (List String)) (group_name : String) :
    Except Err (Nat × Nat × Nat × List Nat) :=
  match findHeaderRow 0 (rows.take 60) with
  | none => .error .headerNotFound
  | some (hi, dc, tc) => .ok (hi, dc, tc, group_cols_scan rows hi (norm_group group_name))

/-- Python `c.startswith("ИГ") or c.startswith("иг")`. -/
def startsIG (l : List Char) : Bool :=
  match l with
  | a :: b :: _ => (a = 'И' && b = 'Г') || (a = 'и' && b = 'г')
  | _ => false

/-- All normalized cells of the first `min 50 rows.length` rows that start
with `"ИГ"`/`"иг"` (the `groups_found` debug scan). -/
def collectIG (rows : List (List String)) : List String :=
  ((rows.take 50).map (fun row => row.filterMap
    (fun cell => let c := norm cell; if startsIG c.data then some c else none))).flatten

/-- Code-point lexicographic comparison of character lists (Python string
ordering). -/
def listCharLe : List Char → List Char → Bool
  | [], _ => true
  | _ :: _, [] => false
  | a :: as, b :: bs =>
    if a.toNat < b.toNat then true
    else if b.toNat < a.toNat then false
    else listCharLe as bs

/-- Insertion step of insertion sort on `String`. -/
def sortStrIns (s : String) : List String → List String
  | [] => [s]
  | x :: xs => if listCharLe s.data x.data then s :: x :: xs else x :: sortStrIns s xs

/-- Insertion sort on `String` (Python `sorted`). -/
def sortStr (l : List String) : List String := l.foldr sortStrIns []

/-- `sorted(groups_found)` of the group-column error path. -/
def igHint (rows : List (List String)) : List String :=
  sortStr (collectIG rows).dedup

/-- `max(group_cols)` (used only on non-empty lists, as in the source). -/
def maxNat (l : List Nat) : Nat := l.foldl Nat.max 0

/-- The row padding of the walker: extend the row with `""` cells until the
date column, time column and every group column are indexable. -/
def padRow (r : List String) (dc tc : Nat) (gcols : List Nat) : List String :=
  let need_len := Nat.max dc (Nat.max tc (maxNat gcols)) + 1
  if r.length < need_len then r ++ List.replicate (need_len - r.length) "" else r

/-- In-cell dedup `seen`/`uniq` loop: keep the first line for each
lower-cased key. -/
def dedupLowerAux (seen : List String) : List String → List String
  | [] => []
  | l :: ls =>
    if pyLower l ∈ seen then dedupLowerAux seen ls
    else l :: dedupLowerAux (pyLower l :: seen) ls

/-- Dedup lines by lower-cased key, preserving first-seen order. -/
def dedupLowerLines (lines : List String) : List String := dedupLowerAux [] lines

/-- One iteration of the row-walking loop of `extract_schedule_for_date`.
The carried state `(cur_date, cur_time)` is updated first; the `continue`
statements of the source only skip the item emission, so they are modelled
by an empty emission list. -/
def walkRow (dc tc : Nat) (gcols : List Nat) (target : String)
    (st : Option String × Option String × List (String × String)) (r : List String) :
    Option String × Option String × List (String × String) :=
  let rP := padRow r dc tc gcols
  let d_raw := norm (rP.getD dc "")
  let t_raw := norm (rP.getD tc "")
  let curD := (parse_ddmm d_raw).or st.1
  let curT := if (searchTime false t_raw.data).isSome then some (normalize_time t_raw) else st.2.1
  let emitted :=
    if curD ≠ some target then []
    else
      match curT with
      | none => []
      | some ct =>
        let parts := gcols.filterMap
          (fun j => let v := norm (rP.getD j ""); if v = "" then none else some v)
        if parts = [] then [(ct, "нет пары")]
        else
          let lines := postprocess_cell_text (pyStrip (joinNLS parts))
          if lines = [] then [(ct, "нет пары")]
          else [(ct, joinNLS (dedupLowerLines lines))]
  (curD, curT, st.2.2 ++ emitted)

/-- The final dedup over `(time, text)` pairs, preserving first-seen order. -/
def dedupeItemsAux (seen : List (String × String)) :
    List (String × String) → List (String × String)
  | [] => []
  | it :: its =>
    if it ∈ seen then dedupeItemsAux seen its
    else it :: dedupeItemsAux (it :: seen) its

/-- `out`, the deduplicated item list. -/
def dedupeItems (items : List (String × String)) : List (String × String) :=
  dedupeItemsAux [] items

/-- `extract_schedule_for_date` from bot.py, working on already-parsed rows. -/
def extractRows (rows : List (List String)) (group_name target_ddmm : String) :
    Except Err (List (String × String)) :=
  match find_header_and_group_cols rows group_name with
  | .error e => .error e
  | .ok (hi, dc, tc, gcols) =>
    if gcols = [] then .error (.groupNotFound (igHint rows))
    else
      let st := (rows.drop (hi + 1)).foldl (walkRow dc tc gcols target_ddmm) (none, none, [])
      .ok (dedupeItems st.2.2)

/-- Split a line on commas. -/
def splitComma : List Char → List (List Char)
  | [] => [[]]
  | c :: cs =>
    if c = ',' then [] :: splitComma cs
    else
      match splitComma cs with
      | [] => [[c]]
      | r :: rs => (c :: r) :: rs

/-- `csv.reader` over the raw text: one row per line, cells split on `','`,
an empty line giving an empty row.  This total function is exact for input
made of `csvPlain` characters and `'\n'` line breaks, with fields below the
csv field-size limit; outside that domain CPython's `csv.reader` can raise
`csv.Error` (bare `'\r'` inside a line, NUL bytes, over-limit fields),
interprets `'"'` quoting, and does not break rows at the extra
`str.splitlines` control characters. -/
def csvParse (s : String) : List (List String) :=
  (splitlinesPy s.data).map
    (fun line => if line = [] then [] else (splitComma line).map (fun cl => (⟨cl⟩ : String)))

/-- Characters on which `csvParse` agrees with CPython's `csv.reader` on a
`StringIO`: everything except the double quote (which starts a quoted
field), NUL and a bare carriage return (both can raise `csv.Error`), and
the line-control characters that `str.splitlines` breaks on but
`csv.reader` does not. -/
def csvPlain (c : Char) : Bool :=
  !(c = '"' || c = '\x00' || c = '\r' || c = '\x0b' || c = '\x0c' ||
    c = '\x1c' || c = '\x1d' || c = '\x1e' || c = '\x85' || c = '\u2028' || c = '\u2029')

/-- `extract_schedule_for_date` from bot.py, from the raw CSV text. -/
def extract_schedule_for_date (csv_text : String) (group_name target_ddmm : String) :
    Except Err (List (String × String)) :=
  extractRows (csvParse csv_text) group_name target_ddmm

/-- The decimal digit character with value `d`. -/
def digChar (d : Fin 10) : Char := Char.ofNat (48 + d.val)

/-- A one-or-two-digit token: an optional leading digit and a final digit. -/
def digStr : Option (Fin 10) → Fin 10 → List Char
  | none, d => [digChar d]
  | some h, d => [digChar h, digChar d]

/-- The numeric value of a one-or-two-digit token. -/
def digVal : Option (Fin 10) → Fin 10 → Nat
  | none, d => d.val
  | some h, d => 10 * h.val + d.val

/-- The table used to refute claim C3: the header sits at row 50, so the
group-column scan window is rows 50–61, while the sibling-label debug scan
only covers rows 0–49. -/
def hintRows : List (List String) :=
  List.replicate 50 ["x"] ++ [["Дата", "Часы"], ["", "", "ИГ25-99"]]

end IGBot

namespace IGBot

/-- Data of a literal `String.mk`. -/
theorem mk_data : ∀ l : List Char, (⟨l⟩ : String).data = l := fun _ => rfl

/-- Digit characters are alphanumeric. -/
theorem digChar_isAlphanum : ∀ d : Fin 10, (digChar d).isAlphanum = true := by decide

/-- Digit characters are at least `'0'`. -/
theorem digChar_ge : ∀ d : Fin 10, '0' ≤ digChar d := by decide

/-- Digit characters are at most `'9'`. -/
theorem digChar_le : ∀ d : Fin 10, digChar d ≤ '9' := by decide

/-- Digit characters are below the Cyrillic block. -/
theorem digChar_not_big : ∀ d : Fin 10, ¬(1024 ≤ (digChar d).toNat) := by decide

/-- Digit characters are not underscores. -/
theorem digChar_ne_underscore : ∀ d : Fin 10, ¬(digChar d = '_') := by decide

/-- Digit characters are not the non-breaking space. -/
theorem digChar_ne_nbsp : ∀ d : Fin 10, ¬(digChar d = '\xa0') := by decide

/-- Digit characters are not whitespace. -/
theorem isPySpace_digChar : ∀ d : Fin 10, isPySpace (digChar d) = false := by decide

/-- The hyphen is not whitespace. -/
theorem isPySpace_hyphen : isPySpace '-' = false := by decide

/-- The en-dash is not whitespace. -/
theorem isPySpace_endash : isPySpace '–' = false := by decide

/-- The value of a single digit string. -/
theorem digitsToNat_one : ∀ b : Fin 10, digitsToNat [digChar b] = b.val := by decide

/-- The value of a two-digit string. -/
theorem digitsToNat_two : ∀ a b : Fin 10,
    digitsToNat [digChar a, digChar b] = 10 * a.val + b.val := by decide

/-- `normalize_time` on a full `H:MM-H:MM` range with hyphen or en-dash. -/
theorem normalize_time_range_aux : ∀ (a : Option (Fin 10)) (b c d : Fin 10)
    (e : Option (Fin 10)) (f g h : Fin 10) (s1 s2 dash : Char),
    s1 = ':' ∨ s1 = '.' → s2 = ':' ∨ s2 = '.' → dash = '-' ∨ dash = '–' →
    normalize_time ⟨digStr a b ++ s1 :: digChar c :: digChar d ::
        dash :: (digStr e f ++ s2 :: digChar g :: [digChar h])⟩ =
      Nat.repr (digVal a b) ++ ":" ++ (⟨[digChar c, digChar d]⟩ : String) ++ "–" ++
      Nat.repr (digVal e f) ++ ":" ++ (⟨[digChar g, digChar h]⟩ : String) := by
  intro a b c d e f g h s1 s2 dash hs1 hs2 hd
  rcases hs1 with rfl | rfl <;> rcases hs2 with rfl | rfl <;> rcases hd with rfl | rfl <;>
    rcases a with _ | a <;> rcases e with _ | e <;>
      simp [normalize_time, norm, mk_data, digStr, digVal, stripChars, dropTrail,
        List.dropWhile, searchTime, timeAt, timeAfterH1, timeAfterSepT, timeTail,
        tailSepMin, endB, isDig, isWordChar, hmSep, isDashTime, digChar_isAlphanum,
        digChar_ge, digChar_le, digChar_not_big, digChar_ne_underscore, digChar_ne_nbsp,
        isPySpace_digChar, isPySpace_hyphen, isPySpace_endash, digitsToNat_one,
        digitsToNat_two]

/-- `normalize_time` on a bare `H:MM` start time. -/
theorem normalize_time_bare_aux : ∀ (a : Option (Fin 10)) (b c d : Fin 10) (s1 : Char),
    s1 = ':' ∨ s1 = '.' →
    normalize_time ⟨digStr a b ++ s1 :: digChar c :: [digChar d]⟩ =
      Nat.repr (digVal a b) ++ ":" ++ (⟨[digChar c, digChar d]⟩ : String) := by
  intro a b c d s1 hs1
  rcases hs1 with rfl | rfl <;> rcases a with _ | a <;>
    simp [normalize_time, norm, mk_data, digStr, digVal, stripChars, dropTrail,
      List.dropWhile, searchTime, timeAt, timeAfterH1, timeAfterSepT, timeTail,
      tailSepMin, endB, isDig, isWordChar, hmSep, isDashTime, digChar_isAlphanum,
      digChar_ge, digChar_le, digChar_not_big, digChar_ne_underscore, digChar_ne_nbsp,
      isPySpace_digChar, digitsToNat_one, digitsToNat_two]

/-- C4 (amended): for every input of the shape `H:MM-H:MM` whose range
separator is `'-'` or `'–'` (the code's `TIME_RE` does not accept the
em-dash `'—'`; see the counterexample) and whose hour/minute separators are
`':'` or `'.'`, `normalize_time` returns the canonical `"H:MM–H:MM"` with
`int`-unpadded hours, the two captured minute digits and an en-dash; a bare
start time `H:MM` with no end time normalizes to `"H:MM"`. -/
theorem c4_time_normalization :
    (∀ (a : Option (Fin 10)) (b c d : Fin 10) (e : Option (Fin 10)) (f g h : Fin 10)
      (s1 s2 dash : Char),
      s1 = ':' ∨ s1 = '.' → s2 = ':' ∨ s2 = '.' → dash = '-' ∨ dash = '–' →
      normalize_time ⟨digStr a b ++ s1 :: digChar c :: digChar d ::
          dash :: (digStr e f ++ s2 :: digChar g :: [digChar h])⟩ =
        Nat.repr (digVal a b) ++ ":" ++ (⟨[digChar c, digChar d]⟩ : String) ++ "–" ++
        Nat.repr (digVal e f) ++ ":" ++ (⟨[digChar g, digChar h]⟩ : String)) ∧
    (∀ (a : Option (Fin 10)) (b c d : Fin 10) (s1 : Char),
      s1 = ':' ∨ s1 = '.' →
      normalize_time ⟨digStr a b ++ s1 :: digChar c :: [digChar d]⟩ =
        Nat.repr (digVal a b) ++ ":" ++ (⟨[digChar c, digChar d]⟩ : String)) :=
  ⟨normalize_time_range_aux, normalize_time_bare_aux⟩

/-- Witness for C4: a concrete zero-padded-hour range with mixed separators
and a concrete bare time, through the theorem itself. -/
theorem c4_time_normalization_witness :
    normalize_time "08:30-9.05" = "8:30–9:05" ∧ normalize_time "8.05" = "8:05" :=
  ⟨c4_time_normalization.1 (some 0) 8 3 0 none 9 0 5 ':' '.' '-'
      (Or.inl rfl) (Or.inr rfl) (Or.inl rfl),
    c4_time_normalization.2 none 8 0 5 '.' (Or.inr rfl)⟩

/-- `parse_ddmm` on a bare day-separator-month token. -/
theorem parse_ddmm_token_aux : ∀ (a : Option (Fin 10)) (b : Fin 10) (c : Option (Fin 10))
    (d : Fin 10) (sep : Char), sep = '.' ∨ sep = '-' ∨ sep = '/' →
    parse_ddmm ⟨digStr a b ++ sep :: digStr c d⟩ =
      some (pad2 (digVal a b) ++ "." ++ pad2 (digVal c d)) := by
  intro a b c d sep hsep
  rcases hsep with rfl | rfl | rfl <;>
    rcases a with _ | a <;> rcases c with _ | c <;>
      simp [parse_ddmm, digStr, digVal, searchDate, dateAt, dateAfterDD, dateAfterSepD,
        yearTail, endB, isDig, isWordChar, dateSep, digChar_isAlphanum, digChar_ge,
        digChar_le, digChar_not_big, digChar_ne_underscore, digitsToNat_one,
        digitsToNat_two]

/-- `parse_ddmm` on a token embedded in surrounding prose. -/
theorem parse_ddmm_embedded_aux : ∀ (a : Option (Fin 10)) (b : Fin 10)
    (c : Option (Fin 10)) (d : Fin 10) (sep : Char), sep = '.' ∨ sep = '-' ∨ sep = '/' →
    parse_ddmm ⟨'с' :: ' ' :: (digStr a b ++ sep :: digStr c d) ++ ' ' :: 'г' :: ['.']⟩ =
      some (pad2 (digVal a b) ++ "." ++ pad2 (digVal c d)) := by
  intro a b c d sep hsep
  rcases hsep with rfl | rfl | rfl <;>
    rcases a with _ | a <;> rcases c with _ | c <;>
      simp [parse_ddmm, digStr, digVal, searchDate, dateAt, dateAfterDD, dateAfterSepD,
        yearTail, endB, isDig, isWordChar, dateSep, digChar_isAlphanum, digChar_ge,
        digChar_le, digChar_not_big, digChar_ne_underscore, digitsToNat_one,
        digitsToNat_two]

/-- C10: `parse_ddmm` performs no calendar-range validation — for every
token of one-or-two digits, a separator (`'.'`, `'-'` or `'/'`), and
one-or-two digits, whether standing alone or embedded between
word-boundary-compatible text, it returns the zero-padded `DD.MM` form of
the two numbers; in particular `"99.99"` yields `"99.99"`. -/
theorem c10_no_calendar_validation :
    (∀ (a : Option (Fin 10)) (b : Fin 10) (c : Option (Fin 10)) (d : Fin 10) (sep : Char),
      sep = '.' ∨ sep = '-' ∨ sep = '/' →
      parse_ddmm ⟨digStr a b ++ sep :: digStr c d⟩ =
        some (pad2 (digVal a b) ++ "." ++ pad2 (digVal c d))) ∧
    (∀ (a : Option (Fin 10)) (b : Fin 10) (c : Option (Fin 10)) (d : Fin 10) (sep : Char),
      sep = '.' ∨ sep = '-' ∨ sep = '/' →
      parse_ddmm ⟨'с' :: ' ' :: (digStr a b ++ sep :: digStr c d) ++ ' ' :: 'г' :: ['.']⟩ =
        some (pad2 (digVal a b) ++ "." ++ pad2 (digVal c d))) ∧
    parse_ddmm "99.99" = some "99.99" :=
  ⟨parse_ddmm_token_aux, parse_ddmm_embedded_aux, by decide⟩

/-- Witness for C10: the impossible calendar date 31 February parses to
`"31.02"`, through the theorem itself. -/
theorem c10_no_calendar_validation_witness :
    parse_ddmm "31.02" = some "31.02" :=
  c10_no_calendar_validation.1 (some 3) 1 (some 0) 2 '.' (Or.inl rfl)

/-- `find_header_and_group_cols` fails only with `headerNotFound`. -/
theorem find_header_error_aux : ∀ (rows : List (List String)) (g : String) (e : Err),
    find_header_and_group_cols rows g = .error e → e = .headerNotFound := by
  intro rows g e h
  cases hf : findHeaderRow 0 (rows.take 60) with
  | none =>
    simp [find_header_and_group_cols, hf] at h
    exact h.symm
  | some v =>
    obtain ⟨hi, dc, tc⟩ := v
    simp [find_header_and_group_cols, hf] at h

/-- String insertion sort grows by one. -/
theorem sortStrIns_length : ∀ (s : String) (l : List String),
    (sortStrIns s l).length = l.length + 1 := by
  intro s l
  induction l with
  | nil => rfl
  | cons x xs ih =>
    simp only [sortStrIns]
    split_ifs with h
    · simp
    · simp [ih]

/-- String insertion sort preserves length. -/
theorem sortStr_length : ∀ l : List String, (sortStr l).length = l.length := by
  intro l
  induction l with
  | nil => rfl
  | cons x xs ih => simp [sortStr, List.foldr, sortStrIns_length]; simpa [sortStr] using ih

/-- String insertion sort is empty only on the empty list. -/
theorem sortStr_eq_nil : ∀ l : List String, sortStr l = [] ↔ l = [] := by
  intro l
  constructor
  · intro h
    have := sortStr_length l
    rw [h] at this
    simpa using (List.length_eq_zero.mp this.symm)
  · intro h; subst h; rfl

/-- The sorted hint set is empty iff the debug scan collected nothing. -/
theorem igHint_eq_nil : ∀ rows, igHint rows = [] ↔ collectIG rows = [] := by
  intro rows
  rw [igHint, sortStr_eq_nil, List.dedup_eq_nil]

/-- The debug scan collects something iff some cell of the first 50 rows
starts with `"ИГ"`/`"иг"` after normalization. -/
theorem collectIG_ne_nil : ∀ rows : List (List String), collectIG rows ≠ [] ↔
    ∃ row ∈ rows.take 50, ∃ cell ∈ row, startsIG (norm cell).data = true := by
  intro rows
  constructor
  · intro h
    obtain ⟨x, hx⟩ := List.exists_mem_of_ne_nil _ h
    simp only [collectIG, List.mem_flatten, List.mem_map] at hx
    obtain ⟨lcell, ⟨row, hrow, rfl⟩, hxl⟩ := hx
    simp only [List.mem_filterMap] at hxl
    obtain ⟨cell, hcell, hf⟩ := hxl
    refine ⟨row, hrow, cell, hcell, ?_⟩
    by_contra hng
    simp [hng] at hf
  · rintro ⟨row, hrow, cell, hcell, hst⟩ h
    have hm : norm cell ∈ collectIG rows := by
      simp only [collectIG, List.mem_flatten, List.mem_map]
      refine ⟨_, ⟨row, hrow, rfl⟩, ?_⟩
      simp only [List.mem_filterMap]
      exact ⟨cell, hcell, by simp [hst]⟩
    rw [h] at hm
    simp at hm

/-- C3 (amended): the diagnostic hint of the group-column error lists the
`"ИГ"`-prefixed labels of the first 50 rows of the whole table — not of the
scan window below the header — so it is non-empty exactly when such a label
occurs within the first 50 rows. -/
theorem c3_hint_window : ∀ (rows : List (List String)) (g t : String) (hint : List String),
    extractRows rows g t = .error (.groupNotFound hint) →
    (hint ≠ [] ↔ ∃ row ∈ rows.take 50, ∃ cell ∈ row, startsIG (norm cell).data = true) := by
  intro rows g t hint h
  cases hf : find_header_and_group_cols rows g with
  | error e2 =>
    rw [extractRows, hf] at h
    simp at h
    have he := find_header_error_aux rows g e2 hf
    rw [he] at h
    simp at h
  | ok v =>
    obtain ⟨hi, dc, tc, gcols⟩ := v
    rw [extractRows, hf] at h
    by_cases hg : gcols = []
    · simp [hg] at h
      have hh : hint = igHint rows := h.symm
      subst hh
      rw [Ne, igHint_eq_nil]
      exact collectIG_ne_nil rows
    · simp [hg] at h

/-- Witness for C3: a failing extraction whose hint is non-empty because the
label sits in the first 50 rows, through the theorem itself. -/
theorem c3_hint_window_witness :
    (["ИГ25-99"] : List String) ≠ [] ↔
      ∃ row ∈ ([["Дата", "Часы"], ["ИГ25-99"]] : List (List String)).take 50,
        ∃ cell ∈ row, startsIG (norm cell).data = true :=
  c3_hint_window [["Дата", "Часы"], ["ИГ25-99"]] "ИГ25-01Б-ОМ" "01.02" ["ИГ25-99"]
    (by decide)

/-- C7: the cell segmenter and fragment glue turn the line block
`"Algebra\nпр\n/ 3-17"` into the single line `"Algebra пр / 3-17"`:
the short format tag is appended to the previous line, and the
slash-prefixed continuation is appended to the result. -/
theorem c7_fragment_glue :
    postprocess_cell_text "Algebra\nпр\n/ 3-17" = ["Algebra пр / 3-17"] := by
  decide

/-- C1 (counterexample): a time group containing the placeholder
`"нет пары"` and a real item merges to BOTH lines; the placeholder is not
dropped, contradicting the claim that only the real lines remain. -/
theorem c1_counterexample :
    merge_items_by_time [("8:00", "нет пары"), ("8:00", "Algebra")] =
      [("8:00", "нет пары\nAlgebra")] ∧
    merge_items_by_time [("8:00", "нет пары"), ("8:00", "Algebra")] ≠
      [("8:00", "Algebra")] := by
  decide

/-- C4 (counterexample): `TIME_RE` accepts only `-` and `–` as range
separators, so with an em-dash `—` the second time is not captured and
`normalize_time` returns only the start time, contradicting the claim that
`—` is an accepted range separator. -/
theorem c4_counterexample :
    normalize_time "8:00—9:35" = "8:00" ∧
    normalize_time "8:00—9:35" ≠ "8:00–9:35" := by
  decide

/-- C2 (counterexample): the pipeline parses the text with the comma
delimiter only; a semicolon-delimited table equivalent to a working
comma-delimited one does not yield the same schedule but fails with
`HeaderNotFound`. -/
theorem c2_counterexample :
    extract_schedule_for_date "Дата,Часы,ИГ25-01Б-ОМ\n01.02,8:00,Math"
        "ИГ25-01Б-ОМ" "01.02" = .ok [("8:00", "Math")] ∧
    extract_schedule_for_date "Дата;Часы;ИГ25-01Б-ОМ\n01.02;8:00;Math"
        "ИГ25-01Б-ОМ" "01.02" = .error .headerNotFound := by
  decide

/-- C5: while walking rows, the carried date and time are overwritten only
by a parseable token and inherited otherwise, the carried-state update does
not depend on the requested date (so it happens on rows skipped by the date
filter too), and in the two-row scenario the second row (blank date and
time cells, non-empty group cell) is attributed to date `01.02` and time
`8:00`. -/
theorem c5_carry_forward :
    (∀ (dc tc : Nat) (gcols : List Nat) (t1 t2 : String)
        (st : Option String × Option String × List (String × String)) (r : List String),
      (walkRow dc tc gcols t1 st r).1 = (walkRow dc tc gcols t2 st r).1 ∧
      (walkRow dc tc gcols t1 st r).2.1 = (walkRow dc tc gcols t2 st r).2.1) ∧
    (∀ (dc tc : Nat) (gcols : List Nat) (target : String)
        (st : Option String × Option String × List (String × String)) (r : List String),
      (parse_ddmm (norm ((padRow r dc tc gcols).getD dc "")) = none →
        (walkRow dc tc gcols target st r).1 = st.1) ∧
      (∀ d, parse_ddmm (norm ((padRow r dc tc gcols).getD dc "")) = some d →
        (walkRow dc tc gcols target st r).1 = some d) ∧
      (searchTime false (norm ((padRow r dc tc gcols).getD tc "")).data = none →
        (walkRow dc tc gcols target st r).2.1 = st.2.1) ∧
      (∀ g, searchTime false (norm ((padRow r dc tc gcols).getD tc "")).data = some g →
        (walkRow dc tc gcols target st r).2.1 =
          some (normalize_time (norm ((padRow r dc tc gcols).getD tc ""))))) ∧
    extractRows [["Дата", "Часы", "ИГ25-01Б-ОМ"], ["01.02", "8:00", "cellA"],
        ["", "", "cellB"]] "ИГ25-01Б-ОМ" "01.02" =
      .ok [("8:00", "cellA"), ("8:00", "cellB")] := by
  refine ⟨?_, ?_, by decide⟩
  · intro dc tc gcols t1 t2 st r
    constructor <;> simp [walkRow]
  · intro dc tc gcols target st r
    refine ⟨?_, ?_, ?_, ?_⟩
    · intro h; simp only [List.getD, List.get?_eq_getElem?] at h; simp [walkRow, h]
    · intro d h; simp only [List.getD, List.get?_eq_getElem?] at h; simp [walkRow, h]
    · intro h; simp only [List.getD, List.get?_eq_getElem?] at h; simp [walkRow, h]
    · intro g h; simp only [List.getD, List.get?_eq_getElem?] at h; simp [walkRow, h]

/-- Witness for C5: on a row with blank date and time cells the carried
state is inherited unchanged, through the theorem itself. -/
theorem c5_carry_forward_witness :
    (walkRow 0 1 [2] "01.02" (some "01.02", some "8:00", []) ["", "", "x"]).1 =
      some "01.02" ∧
    (walkRow 0 1 [2] "01.02" (some "01.02", some "8:00", []) ["", "", "x"]).2.1 =
      some "8:00" :=
  ⟨(c5_carry_forward.2.1 0 1 [2] "01.02" (some "01.02", some "8:00", [])
      ["", "", "x"]).1 (by decide),
    ((c5_carry_forward.2.1 0 1 [2] "01.02" (some "01.02", some "8:00", [])
      ["", "", "x"]).2.2.1) (by decide)⟩

/-- `getD` is unchanged by `take` below the bound. -/
theorem getD_take_eq : ∀ (l : List (List String)) (n i : Nat), i < n →
    (l.take n).getD i [] = l.getD i [] := by
  intro l
  induction l with
  | nil => intro n i _; simp
  | cons x xs ih =>
    intro n i hin
    cases n with
    | zero => omega
    | succ n =>
      cases i with
      | zero => simp
      | succ i => simpa using ih n i (by omega)

/-- The header scan returns nothing when no row within the scanned list
qualifies. -/
theorem findHeaderRow_none_aux : ∀ (l : List (List String)),
    (∀ i, i < l.length → ¬ headerQ (l.getD i [])) → ∀ k, findHeaderRow k l = none := by
  intro l
  induction l with
  | nil => intro _ k; rfl
  | cons row rest ih =>
    intro h k
    have h0 : ¬ ("дата" ∈ lowRow row ∧ "часы" ∈ lowRow row) := by
      have := h 0 (by simp)
      simpa [headerQ] using this
    simp only [findHeaderRow]
    rw [if_neg h0]
    exact ih (fun i hi => by simpa using h (i + 1) (by simpa using hi)) (k + 1)

/-- The header scan returns the first qualifying row, with the first indices
of the two labels. -/
theorem findHeaderRow_found_aux : ∀ (l : List (List String)) (i k : Nat),
    i < l.length → headerQ (l.getD i []) → (∀ j, j < i → ¬ headerQ (l.getD j [])) →
    findHeaderRow k l = some (k + i, idxOfStr "дата" (lowRow (l.getD i [])),
      idxOfStr "часы" (lowRow (l.getD i []))) := by
  intro l
  induction l with
  | nil => intro i k h; simp at h
  | cons row rest ih =>
    intro i k hi hq hmin
    cases i with
    | zero =>
      have hq0 : "дата" ∈ lowRow row ∧ "часы" ∈ lowRow row := by
        simpa [headerQ] using hq
      simp only [findHeaderRow]
      rw [if_pos hq0]
      simp
    | succ i =>
      have h0 : ¬ ("дата" ∈ lowRow row ∧ "часы" ∈ lowRow row) := by
        have := hmin 0 (Nat.succ_pos i)
        simpa [headerQ] using this
      simp only [findHeaderRow]
      rw [if_neg h0]
      have heq := ih i (k + 1) (by simpa using hi) (by simpa using hq)
        (fun j hj => by simpa using hmin (j + 1) (by omega))
      rw [heq]
      have : k + 1 + i = k + (i + 1) := by omega
      simp [this]

/-- C6: the header location scans only the first 60 rows; if no row in that
window has cells equal (after normalization and lower-casing) to the date
label and the time label, the pipeline fails with the header-not-found
error and returns no partial result; otherwise the first qualifying row
wins, with the label columns located by first index. -/
theorem c6_header_scan :
    (∀ (rows : List (List String)) (g t : String),
      (∀ i, i < min 60 rows.length → ¬ headerQ (rows.getD i [])) →
      find_header_and_group_cols rows g = .error .headerNotFound ∧
      extractRows rows g t = .error .headerNotFound) ∧
    (∀ (rows : List (List String)) (g : String) (i : Nat),
      i < min 60 rows.length → headerQ (rows.getD i []) →
      (∀ j, j < i → ¬ headerQ (rows.getD j [])) →
      ∃ gcols, find_header_and_group_cols rows g =
        .ok (i, idxOfStr "дата" (lowRow (rows.getD i [])),
             idxOfStr "часы" (lowRow (rows.getD i [])), gcols)) := by
  constructor
  · intro rows g t h
    have hn : findHeaderRow 0 (rows.take 60) = none := by
      refine findHeaderRow_none_aux _ (fun i hi => ?_) 0
      have hi' : i < min 60 rows.length := by simpa using hi
      rw [getD_take_eq rows 60 i (lt_of_lt_of_le hi' (Nat.min_le_left _ _))]
      exact h i hi'
    constructor
    · simp [find_header_and_group_cols, hn]
    · simp [extractRows, find_header_and_group_cols, hn]
  · intro rows g i hi hq hmin
    have hf : findHeaderRow 0 (rows.take 60) =
        some (0 + i, idxOfStr "дата" (lowRow (rows.getD i [])),
          idxOfStr "часы" (lowRow (rows.getD i []))) := by
      have h60 : i < 60 := lt_of_lt_of_le hi (Nat.min_le_left _ _)
      have hlen : i < (rows.take 60).length := by simpa using hi
      have := findHeaderRow_found_aux (rows.take 60) i 0 hlen
        (by rw [getD_take_eq rows 60 i h60]; exact hq)
        (fun j hj => by
          rw [getD_take_eq rows 60 j (by omega)]
          exact hmin j hj)
      rw [this, getD_take_eq rows 60 i h60]
    exact ⟨group_cols_scan rows i (norm_group g),
      by simp [find_header_and_group_cols, hf]⟩

/-- Witness for C6: a header-free table fails, and a table whose first row
holds both labels locates the header at row 0, through the theorem
itself. -/
theorem c6_header_scan_witness :
    (find_header_and_group_cols [["a", "b"]] "G" = .error .headerNotFound ∧
      extractRows [["a", "b"]] "G" "01.02" = .error .headerNotFound) ∧
    ∃ gcols, find_header_and_group_cols [["Дата", "Часы"]] "G" =
      .ok (0, idxOfStr "дата" (lowRow ([["Дата", "Часы"]].getD 0 [])),
           idxOfStr "часы" (lowRow ([["Дата", "Часы"]].getD 0 [])), gcols) :=
  ⟨c6_header_scan.1 [["a", "b"]] "G" "01.02" (by decide),
   c6_header_scan.2 [["Дата", "Часы"]] "G" 0 (by decide) (by decide) (by decide)⟩

/-- The initial value bounds a `foldl Nat.max` from below. -/
theorem foldl_max_init : ∀ (l : List Nat) (a : Nat), a ≤ l.foldl Nat.max a := by
  intro l
  induction l with
  | nil => intro a; simp
  | cons x xs ih => intro a; exact le_trans (Nat.le_max_left a x) (ih (Nat.max a x))

/-- Every member bounds a `foldl Nat.max` from below. -/
theorem mem_le_foldl_max : ∀ (l : List Nat) (a j : Nat), j ∈ l → j ≤ l.foldl Nat.max a := by
  intro l
  induction l with
  | nil => intro a j h; simp at h
  | cons x xs ih =>
    intro a j h
    rcases List.mem_cons.mp h with rfl | hx
    · exact le_trans (Nat.le_max_right a j) (foldl_max_init xs (Nat.max a j))
    · exact ih (Nat.max a x) j hx

/-- The padded row is long enough for `need_len`. -/
theorem need_le_padRow_length : ∀ (r : List String) (dc tc : Nat) (gcols : List Nat),
    Nat.max dc (Nat.max tc (maxNat gcols)) + 1 ≤ (padRow r dc tc gcols).length := by
  intro r dc tc gcols
  simp only [padRow]
  split_ifs with h
  · simp only [List.length_append, List.length_replicate]; omega
  · omega

/-- C9: every row is padded on the right so that the date column, the time
column and every group column are in bounds before any cell access; and the
extraction pipeline has no malformed-row failure — its only errors are the
missing-header and missing-group-column errors. -/
theorem c9_padding_safe :
    (∀ (r : List String) (dc tc : Nat) (gcols : List Nat), gcols ≠ [] →
      dc < (padRow r dc tc gcols).length ∧ tc < (padRow r dc tc gcols).length ∧
      ∀ j ∈ gcols, j < (padRow r dc tc gcols).length) ∧
    (∀ (rows : List (List String)) (g t : String) (e : Err),
      extractRows rows g t = .error e →
      e = .headerNotFound ∨ ∃ hint, e = .groupNotFound hint) := by
  constructor
  · intro r dc tc gcols _
    have hlen := need_le_padRow_length r dc tc gcols
    refine ⟨?_, ?_, ?_⟩
    · have : dc ≤ Nat.max dc (Nat.max tc (maxNat gcols)) := Nat.le_max_left _ _
      omega
    · have : tc ≤ Nat.max tc (maxNat gcols) := Nat.le_max_left _ _
      have h2 : Nat.max tc (maxNat gcols) ≤ Nat.max dc (Nat.max tc (maxNat gcols)) :=
        Nat.le_max_right _ _
      omega
    · intro j hj
      have h1 : j ≤ maxNat gcols := mem_le_foldl_max gcols 0 j hj
      have h2 : maxNat gcols ≤ Nat.max tc (maxNat gcols) := Nat.le_max_right _ _
      have h3 : Nat.max tc (maxNat gcols) ≤ Nat.max dc (Nat.max tc (maxNat gcols)) :=
        Nat.le_max_right _ _
      omega
  · intro rows g t e h
    cases hf : find_header_and_group_cols rows g with
    | error e' =>
      left
      rw [extractRows, hf] at h
      simp at h
      rw [← h]
      exact find_header_error_aux rows g e' hf
    | ok v =>
      obtain ⟨hi, dc, tc, gcols⟩ := v
      rw [extractRows, hf] at h
      by_cases hg : gcols = []
      · right
        simp [hg] at h
        exact ⟨igHint rows, h.symm⟩
      · simp [hg] at h

/-- Witness for C9: a concrete empty row padded for columns 0, 1 and 3, and
a concrete failing extraction classified, through the theorem itself. -/
theorem c9_padding_safe_witness :
    (0 < (padRow [] 0 1 [3]).length ∧ 1 < (padRow [] 0 1 [3]).length ∧
      ∀ j ∈ [3], j < (padRow [] 0 1 [3]).length) ∧
    (Err.headerNotFound = Err.headerNotFound ∨
      ∃ hint, Err.headerNotFound = Err.groupNotFound hint) :=
  ⟨c9_padding_safe.1 [] 0 1 [3] (by decide),
   c9_padding_safe.2 [] "G" "01.02" Err.headerNotFound (by decide)⟩

/-- The carriage return is a line break. -/
theorem isLineBreak_cr : isLineBreak '\r' = true := by decide

/-- Every character of a line produced by `splitAux` comes from the
accumulator or the input. -/
theorem splitAux_mem_subset : ∀ (acc l : List Char), ∀ line ∈ splitAux acc l,
    ∀ c ∈ line, c ∈ acc ∨ c ∈ l := by
  intro acc l
  induction acc, l using splitAux.induct with
  | case1 acc =>
    intro line hline c hc
    simp [splitAux] at hline
    subst hline
    left; simpa using hc
  | case2 acc ch hbr =>
    intro line hline c hc
    simp [splitAux, hbr] at hline
    subst hline
    left; simpa using hc
  | case3 acc ch hbr d hcd =>
    intro line hline c hc
    obtain ⟨rfl, rfl⟩ := hcd
    simp [splitAux, isLineBreak_cr] at hline
    subst hline
    left; simpa using hc
  | case4 acc ch hbr d cs hcd hne ih =>
    intro line hline c hc
    obtain ⟨rfl, rfl⟩ := hcd
    simp [splitAux, isLineBreak_cr, hne] at hline
    rcases hline with rfl | hline
    · left; simpa using hc
    · rcases ih line hline c hc with h | h
      · simp at h
      · right; simp [h]
  | case5 acc ch hbr d cs hncd ih =>
    intro line hline c hc
    rw [splitAux.eq_def] at hline
    simp [hbr, hncd] at hline
    rcases hline with rfl | hline
    · left; simpa using hc
    · rcases ih line hline c hc with h | h
      · simp at h
      · right; simp [h]
  | case6 acc ch cs hnbr ih =>
    intro line hline c hc
    rw [splitAux.eq_def] at hline
    simp [hnbr] at hline
    rcases ih line hline c hc with h | h
    · rcases List.mem_cons.mp h with rfl | h2
      · right; simp
      · left; exact h2
    · right; simp [h]

/-- `getD` of an in-bounds index is a member. -/
theorem getD_mem : ∀ (l : List (List String)) (i : Nat), i < l.length → l.getD i [] ∈ l := by
  intro l
  induction l with
  | nil => intro i h; simp at h
  | cons x xs ih =>
    intro i h
    cases i with
    | zero => simp
    | succ i => simpa using Or.inr (ih i (by simpa using h))

/-- Splitting a comma-free line on commas yields the line itself. -/
theorem splitComma_no_comma : ∀ l : List Char, (∀ c ∈ l, ¬ c = ',') → splitComma l = [l] := by
  intro l
  induction l with
  | nil => intro _; rfl
  | cons c cs ih =>
    intro h
    have hc : ¬ c = ',' := h c (by simp)
    simp only [splitComma]
    rw [if_neg hc, ih (fun x hx => h x (by simp [hx]))]

/-- In a comma-free text every CSV row is a single cell (the whole line), so
no row can hold both header labels. -/
theorem csvParse_no_comma : ∀ (s : String), (∀ c ∈ s.data, ¬ c = ',') →
    ∀ row ∈ csvParse s, ¬ headerQ row := by
  intro s hs row hrow
  simp only [csvParse, List.mem_map] at hrow
  obtain ⟨line, hline, rfl⟩ := hrow
  by_cases hl : line = []
  · subst hl
    simp [headerQ, lowRow]
  · have hmem : line ∈ splitAux [] s.data := by
      cases hdata : s.data with
      | nil => rw [hdata] at hline; simp [splitlinesPy] at hline
      | cons x xs => rw [hdata] at hline; simpa [splitlinesPy] using hline
    have hcomma : ∀ c ∈ line, ¬ c = ',' := by
      intro c hc
      rcases splitAux_mem_subset [] s.data line hmem c hc with h | h
      · simp at h
      · exact hs c h
    rw [if_neg hl, splitComma_no_comma line hcomma]
    intro hq
    obtain ⟨h1, h2⟩ := hq
    simp only [lowRow, List.map_cons, List.map_nil, List.mem_singleton] at h1 h2
    rw [← h1] at h2
    exact absurd h2 (by decide)

/-- C2 (amended): the pipeline splits cells on the comma delimiter only
(`csv.reader` default dialect); no delimiter detection by counting exists.
On the domain where the `csv.reader` model is exact — comma-free text of
`csvPlain` characters and `'\n'` line breaks, short enough that every
field is below the csv field-size limit — every parsed row is a single
cell, so the header is never found and the pipeline fails with
`HeaderNotFound` instead of yielding the schedule its comma-delimited
equivalent yields; in particular the semicolon-delimited twin of a
working comma table does. -/
theorem c2_comma_only : ∀ (s g t : String),
    (∀ c ∈ s.data, ¬ c = ',' ∧ csvPlain c = true) → s.data.length < 131072 →
    extract_schedule_for_date s g t = .error .headerNotFound := by
  intro s g t hs _
  have hs1 : ∀ c ∈ s.data, ¬ c = ',' := fun c hc => (hs c hc).1
  have hn : findHeaderRow 0 ((csvParse s).take 60) = none := by
    refine findHeaderRow_none_aux _ (fun i hi => ?_) 0
    have hi2 : i < min 60 (csvParse s).length := by simpa using hi
    rw [getD_take_eq _ 60 i (lt_of_lt_of_le hi2 (Nat.min_le_left _ _))]
    exact csvParse_no_comma s hs1 _
      (getD_mem _ i (lt_of_lt_of_le hi2 (Nat.min_le_right _ _)))
  simp [extract_schedule_for_date, extractRows, find_header_and_group_cols, hn]

/-- Witness for C2: the semicolon-delimited table fails with
`HeaderNotFound`, through the theorem itself. -/
theorem c2_comma_only_witness :
    extract_schedule_for_date "Дата;Часы;ИГ25-01Б-ОМ\n01.02;8:00;Math"
      "ИГ25-01Б-ОМ" "01.02" = .error .headerNotFound :=
  c2_comma_only "Дата;Часы;ИГ25-01Б-ОМ\n01.02;8:00;Math" "ИГ25-01Б-ОМ" "01.02"
    (by decide) (by decide)

/-- C3 (counterexample): on `hintRows` the header is found at row 50 and the
group column is missing, and row 51 — inside the scan window below the
header — holds the similarly-prefixed label `"ИГ25-99"`, yet the error's
diagnostic list is empty, because the debug scan only covers the first 50
rows of the table. -/
theorem c3_counterexample :
    extractRows hintRows "ИГ25-01Б-ОМ" "01.02" = .error (.groupNotFound []) ∧
    find_header_and_group_cols hintRows "ИГ25-01Б-ОМ" = .ok (50, 0, 1, []) ∧
    startsIG (norm ((hintRows.getD 51 []).getD 2 "")).data = true ∧
    "ИГ25-".data.isPrefixOf (norm ((hintRows.getD 51 []).getD 2 "")).data = true ∧
    51 < 50 + 12 := by
  decide

end IGBot

namespace IGBot

theorem dropTrail_mem : ∀ (l : List Char) (c : Char), c ∈ dropTrail l → c ∈ l := by
  intro l
  induction l with
  | nil => intro c h; simp [dropTrail] at h
  | cons x xs ih =>
    intro c h
    rw [dropTrail] at h
    cases hxs : dropTrail xs with
    | nil =>
      rw [hxs] at h
      by_cases hs : isPySpace x = true
      · simp [hs] at h
      · simp only [Bool.not_eq_true] at hs
        simp [hs] at h
        simp [h]
    | cons y ys =>
      rw [hxs] at h
      rcases List.mem_cons.mp h with rfl | h2
      · simp
      · exact List.mem_cons_of_mem x (ih c (hxs ▸ h2))

theorem dropTrail_eq_nil : ∀ l : List Char, dropTrail l = [] ↔ ∀ c ∈ l, isPySpace c = true := by
  intro l
  induction l with
  | nil => simp [dropTrail]
  | cons x xs ih =>
    rw [dropTrail]
    cases hxs : dropTrail xs with
    | nil =>
      constructor
      · intro h c hc
        by_cases hs : isPySpace x = true
        · rcases List.mem_cons.mp hc with rfl | h2
          · exact hs
          · exact (ih.mp hxs) c h2
        · simp [hs] at h
      · intro h
        simp [h x (by simp)]
    | cons y ys =>
      constructor
      · intro h; simp at h
      · intro h
        have : dropTrail xs = [] := ih.mpr (fun c hc => h c (List.mem_cons_of_mem x hc))
        rw [this] at hxs
        simp at hxs

theorem dropTrail_head? : ∀ l : List Char, dropTrail l = [] ∨ (dropTrail l).head? = l.head? := by
  intro l
  cases l with
  | nil => left; rfl
  | cons x xs =>
    rw [dropTrail]
    cases hxs : dropTrail xs with
    | nil =>
      by_cases hs : isPySpace x = true
      · left; simp [hs]
      · right; simp [hs]
    | cons y ys => right; rfl

theorem dropTrail_getLast? : ∀ (l : List Char) (x : Char),
    (dropTrail l).getLast? = some x → isPySpace x = false := by
  intro l
  induction l with
  | nil => intro x h; simp [dropTrail] at h
  | cons c cs ih =>
    intro x h
    rw [dropTrail] at h
    cases hcs : dropTrail cs with
    | nil =>
      rw [hcs] at h
      by_cases hs : isPySpace c = true
      · simp [hs] at h
      · simp only [Bool.not_eq_true] at hs
        simp [hs] at h
        rw [← h]; exact hs
    | cons y ys =>
      rw [hcs] at h
      rw [List.getLast?_cons_cons] at h
      exact ih x (hcs ▸ h)

theorem dropTrail_of_getLast? : ∀ (l : List Char) (x : Char),
    l.getLast? = some x → isPySpace x = false → dropTrail l = l := by
  intro l
  induction l with
  | nil => intro x h; simp at h
  | cons c cs ih =>
    intro x h hs
    cases cs with
    | nil =>
      simp at h
      subst h
      simp [dropTrail, hs]
    | cons d ds =>
      rw [List.getLast?_cons_cons] at h
      have := ih x h hs
      rw [dropTrail, this]


theorem dw_mem : ∀ (l : List Char) (c : Char), c ∈ l.dropWhile isPySpace → c ∈ l := by
  intro l
  induction l with
  | nil => intro c h; simp at h
  | cons x xs ih =>
    intro c h
    rw [List.dropWhile_cons] at h
    by_cases hs : isPySpace x = true
    · simp only [hs, if_true] at h
      exact List.mem_cons_of_mem x (ih c h)
    · simp only [Bool.not_eq_true] at hs
      simp [hs] at h
      rcases h with rfl | h2
      · simp
      · simp [h2]

theorem dw_head : ∀ (l : List Char) (c : Char) (cs : List Char),
    l.dropWhile isPySpace = c :: cs → isPySpace c = false := by
  intro l
  induction l with
  | nil => intro c cs h; simp at h
  | cons x xs ih =>
    intro c cs h
    rw [List.dropWhile_cons] at h
    by_cases hs : isPySpace x = true
    · simp only [hs, if_true] at h
      exact ih c cs h
    · simp only [Bool.not_eq_true] at hs
      simp [hs] at h
      rw [← h.1]
      exact hs

theorem mem_stripChars : ∀ (l : List Char) (c : Char), c ∈ stripChars l → c ∈ l := by
  intro l c h
  exact dw_mem l c (dropTrail_mem _ c h)

theorem stripChars_head : ∀ (l : List Char) (c : Char) (cs : List Char),
    stripChars l = c :: cs → isPySpace c = false := by
  intro l c cs h
  rw [stripChars] at h
  rcases dropTrail_head? (l.dropWhile isPySpace) with h2 | h2
  · rw [h2] at h; simp at h
  · rw [h] at h2
    cases hdw : l.dropWhile isPySpace with
    | nil => rw [hdw] at h2; simp at h2
    | cons d ds =>
      rw [hdw] at h2
      simp at h2
      subst h2
      exact dw_head l c ds hdw

theorem stripChars_getLast : ∀ (l : List Char) (x : Char),
    (stripChars l).getLast? = some x → isPySpace x = false := by
  intro l x h
  exact dropTrail_getLast? _ x h

theorem stripChars_of_ends : ∀ (c : Char) (cs : List Char) (x : Char),
    isPySpace c = false → (c :: cs).getLast? = some x → isPySpace x = false →
    stripChars (c :: cs) = c :: cs := by
  intro c cs x hc hl hx
  rw [stripChars, List.dropWhile_cons]
  simp only [hc, Bool.false_eq_true, if_false]
  exact dropTrail_of_getLast? (c :: cs) x hl hx

theorem stripChars_idem : ∀ l : List Char, stripChars (stripChars l) = stripChars l := by
  intro l
  cases hs : stripChars l with
  | nil => rfl
  | cons c cs =>
    have hc : isPySpace c = false := stripChars_head l c cs hs
    have hlast : ∃ x, (c :: cs).getLast? = some x := by
      cases h : (c :: cs).getLast? with
      | none => simp at h
      | some y => exact ⟨y, rfl⟩
    obtain ⟨x, hx⟩ := hlast
    have hxs : isPySpace x = false := stripChars_getLast l x (by rw [hs, hx])
    exact stripChars_of_ends c cs x hc hx hxs


theorem splitAux_lines_nonbreak : ∀ (acc l : List Char),
    (∀ c ∈ acc, isLineBreak c = false) → ∀ line ∈ splitAux acc l,
    ∀ c ∈ line, isLineBreak c = false := by
  intro acc l
  induction acc, l using splitAux.induct with
  | case1 acc =>
    intro hacc line hline c hc
    simp [splitAux] at hline
    subst hline
    exact hacc c (by simpa using hc)
  | case2 acc ch hbr =>
    intro hacc line hline c hc
    simp [splitAux, hbr] at hline
    subst hline
    exact hacc c (by simpa using hc)
  | case3 acc ch hbr d hcd =>
    intro hacc line hline c hc
    obtain ⟨rfl, rfl⟩ := hcd
    simp [splitAux, isLineBreak_cr] at hline
    subst hline
    exact hacc c (by simpa using hc)
  | case4 acc ch hbr d cs hcd hne ih =>
    intro hacc line hline c hc
    obtain ⟨rfl, rfl⟩ := hcd
    simp [splitAux, isLineBreak_cr, hne] at hline
    rcases hline with rfl | hline
    · exact hacc c (by simpa using hc)
    · exact ih (by simp) line hline c hc
  | case5 acc ch hbr d cs hncd ih =>
    intro hacc line hline c hc
    rw [splitAux.eq_def] at hline
    simp [hbr, hncd] at hline
    rcases hline with rfl | hline
    · exact hacc c (by simpa using hc)
    · exact ih (by simp) line hline c hc
  | case6 acc ch cs hnbr ih =>
    intro hacc line hline c hc
    rw [splitAux.eq_def] at hline
    simp [hnbr] at hline
    refine ih ?_ line hline c hc
    intro x hx
    rcases List.mem_cons.mp hx with rfl | h2
    · simpa using hnbr
    · exact hacc x h2

theorem splitAux_append_nonbreak : ∀ (mid : List Char),
    (∀ c ∈ mid, isLineBreak c = false) → ∀ (acc cs : List Char),
    splitAux acc (mid ++ cs) = splitAux (mid.reverse ++ acc) cs := by
  intro mid
  induction mid with
  | nil => intro _ acc cs; simp
  | cons m ms ih =>
    intro h acc cs
    have hm : isLineBreak m = false := h m (by simp)
    rw [List.cons_append, splitAux.eq_def]
    simp only [hm, Bool.false_eq_true, if_false]
    rw [ih (fun c hc => h c (by simp [hc])) (m :: acc) cs]
    simp

theorem splitAux_all_nonbreak : ∀ (l : List Char),
    (∀ c ∈ l, isLineBreak c = false) → ∀ acc, splitAux acc l = [acc.reverse ++ l] := by
  intro l h acc
  have := splitAux_append_nonbreak l h acc []
  rw [List.append_nil] at this
  rw [this, splitAux]
  simp

theorem joinNL_ne_nil : ∀ (b : List (List Char)), b ≠ [] → (∀ x ∈ b, x ≠ []) →
    joinNL b ≠ [] := by
  intro b
  cases b with
  | nil => intro h; simp at h
  | cons l ls =>
    intro _ hx
    cases ls with
    | nil => simpa [joinNL] using hx l (by simp)
    | cons l2 ls2 =>
      rw [joinNL.eq_def]
      simp

theorem splitlinesPy_cons : ∀ (c : Char) (cs : List Char),
    splitlinesPy (c :: cs) = splitAux [] (c :: cs) := by
  intro c cs
  rfl

theorem joinNL_single : ∀ l : List Char, joinNL [l] = l := by
  intro l; rfl

theorem joinNL_cons_cons : ∀ (l l2 : List Char) (ls : List (List Char)),
    joinNL (l :: l2 :: ls) = l ++ '\n' :: joinNL (l2 :: ls) := by
  intro l l2 ls; rfl

theorem splitlines_joinNL : ∀ (b : List (List Char)), b ≠ [] →
    (∀ x ∈ b, x ≠ [] ∧ ∀ c ∈ x, isLineBreak c = false) →
    splitlinesPy (joinNL b) = b := by
  intro b
  induction b with
  | nil => intro h; simp at h
  | cons l ls ih =>
    intro _ hx
    have hl : l ≠ [] := (hx l (by simp)).1
    have hlnb : ∀ c ∈ l, isLineBreak c = false := (hx l (by simp)).2
    obtain ⟨c, cs, rfl⟩ : ∃ c cs, l = c :: cs := by
      cases l with
      | nil => exact absurd rfl hl
      | cons c cs => exact ⟨c, cs, rfl⟩
    cases ls with
    | nil =>
      rw [joinNL_single, splitlinesPy_cons, splitAux_all_nonbreak _ hlnb]
      simp
    | cons l2 ls2 =>
      have hjoin : joinNL (l2 :: ls2) ≠ [] :=
        joinNL_ne_nil _ (by simp) (fun x hxm => (hx x (by simp [hxm])).1)
      rw [joinNL_cons_cons]
      rw [List.cons_append, splitlinesPy_cons, ← List.cons_append]
      rw [splitAux_append_nonbreak _ hlnb [] ('\n' :: joinNL (l2 :: ls2))]
      rw [splitAux.eq_def]
      simp only [List.append_nil]
      have hlf : isLineBreak '\n' = true := by decide
      rw [hlf]
      simp only [if_true]
      cases hj : joinNL (l2 :: ls2) with
      | nil => exact absurd hj hjoin
      | cons d ds =>
        have hne : ¬('\n' = '\x0d' ∧ d = '\n') := by
          intro hcd
          exact absurd hcd.1 (by decide)
        simp only [hne, if_false]
        rw [← hj]
        have hsp : splitAux [] (joinNL (l2 :: ls2)) = splitlinesPy (joinNL (l2 :: ls2)) := by
          rw [hj, splitlinesPy_cons]
        rw [hsp, ih (by simp) (fun x hxm => hx x (by simp [hxm]))]
        simp


theorem br_chars : ∀ c : Char, isLineBreak c = true →
    c = '\n' ∨ c = '\r' ∨ c = '\x0b' ∨ c = '\x0c' ∨ c = '\x1c' ∨ c = '\x1d' ∨
    c = '\x1e' ∨ c = '\x85' ∨ c = '\u2028' ∨ c = '\u2029' := by
  intro c h
  simpa [isLineBreak, Bool.or_eq_true, decide_eq_true_eq, or_assoc] using h

theorem sp_false_br_false : ∀ c : Char, isPySpace c = false → isLineBreak c = false := by
  intro c h
  by_contra hbr
  simp only [Bool.not_eq_false] at hbr
  rcases br_chars c hbr with rfl | rfl | rfl | rfl | rfl | rfl | rfl | rfl | rfl | rfl <;>
    exact absurd h (by decide)

theorem joinNL_head? : ∀ (c : Char) (cs : List Char) (ls : List (List Char)),
    (joinNL ((c :: cs) :: ls)).head? = some c := by
  intro c cs ls
  cases ls with
  | nil => rw [joinNL_single]; rfl
  | cons l2 ls2 => rw [joinNL_cons_cons]; rfl

theorem getLast?_of_ne_nil : ∀ (l : List Char), l ≠ [] → ∃ x, l.getLast? = some x := by
  intro l hl
  cases h : l.getLast? with
  | none =>
    rw [List.getLast?_eq_none_iff] at h
    exact absurd h hl
  | some y => exact ⟨y, rfl⟩

theorem getLast?_append_ne_nil : ∀ (l m : List Char), m ≠ [] →
    (l ++ m).getLast? = m.getLast? := by
  intro l m hm
  rw [List.getLast?_append]
  obtain ⟨y, hy⟩ := getLast?_of_ne_nil m hm
  rw [hy]
  rfl

theorem joinNL_getLast? : ∀ (b : List (List Char)), b ≠ [] → (∀ x ∈ b, x ≠ []) →
    ∃ x ∈ b, (joinNL b).getLast? = x.getLast? := by
  intro b
  induction b with
  | nil => intro h; simp at h
  | cons l ls ih =>
    intro _ hx
    cases ls with
    | nil =>
      refine ⟨l, by simp, ?_⟩
      rw [joinNL_single]
    | cons l2 ls2 =>
      obtain ⟨x, hxm, hlast⟩ := ih (by simp) (fun y hy => hx y (by simp [hy]))
      refine ⟨x, by simp [hxm], ?_⟩
      rw [joinNL_cons_cons]
      have hjoin : joinNL (l2 :: ls2) ≠ [] :=
        joinNL_ne_nil _ (by simp) (fun y hy => hx y (by simp [hy]))
      rw [getLast?_append_ne_nil _ _ (by simp)]
      cases hj : joinNL (l2 :: ls2) with
      | nil => exact absurd hj hjoin
      | cons d ds =>
        rw [List.getLast?_cons_cons, ← hj]
        exact hlast

theorem stripChars_joinNL : ∀ (b : List (List Char)), b ≠ [] → (∀ x ∈ b, goodLine x) →
    stripChars (joinNL b) = joinNL b := by
  intro b hb hx
  obtain ⟨l, ls, rfl⟩ : ∃ l ls, b = l :: ls := by
    cases b with
    | nil => exact absurd rfl hb
    | cons l ls => exact ⟨l, ls, rfl⟩
  have hgl := hx l (by simp)
  obtain ⟨c, cs, rfl⟩ : ∃ c cs, l = c :: cs := by
    cases l with
    | nil => exact absurd rfl hgl.1
    | cons c cs => exact ⟨c, cs, rfl⟩
  have hc : isPySpace c = false := stripChars_head (c :: cs) c cs hgl.2.1
  obtain ⟨x, hxm, hlast⟩ := joinNL_getLast? ((c :: cs) :: ls) (by simp)
    (fun y hy => (hx y hy).1)
  obtain ⟨y, hy⟩ := getLast?_of_ne_nil x (hx x hxm).1
  have hys : isPySpace y = false := by
    have hgx := hx x hxm
    exact stripChars_getLast x y (by rw [hgx.2.1]; exact hy)
  cases hj : joinNL ((c :: cs) :: ls) with
  | nil =>
    exact absurd hj (joinNL_ne_nil _ (by simp) (fun z hz => (hx z hz).1))
  | cons d ds =>
    have hd : d = c := by
      have := joinNL_head? c cs ls
      rw [hj] at this
      simpa using this
    subst hd
    refine stripChars_of_ends d ds y ?_ ?_ hys
    · exact hc
    · rw [← hj, hlast, hy]

theorem pyLines_good : ∀ (x l : List Char), l ∈ pyLines x → goodLine l := by
  intro x l hl
  simp only [pyLines, List.mem_filterMap] at hl
  obtain ⟨l0, hl0, hf⟩ := hl
  by_cases hs : stripChars l0 = []
  · simp [hs] at hf
  · simp only [hs, if_false] at hf
    have heq : stripChars l0 = l := by simpa using hf
    subst heq
    refine ⟨hs, stripChars_idem l0, ?_⟩
    intro c hc
    have hc0 : c ∈ l0 := mem_stripChars l0 c hc
    cases hxsh : x with
    | nil => rw [hxsh] at hl0; simp [splitlinesPy] at hl0
    | cons d ds =>
      rw [hxsh, splitlinesPy_cons] at hl0
      exact splitAux_lines_nonbreak [] (d :: ds) (by simp) l0 hl0 c hc0


theorem splitAux_head_struct : ∀ (acc l : List Char), ∃ t,
    splitAux acc l = (acc.reverse ++ l.takeWhile (fun c => !isLineBreak c)) :: t := by
  intro acc l
  induction acc, l using splitAux.induct with
  | case1 acc => exact ⟨[], by simp [splitAux]⟩
  | case2 acc ch hbr =>
    refine ⟨[], ?_⟩
    simp [splitAux, hbr, List.takeWhile_cons]
  | case3 acc ch hbr d hcd =>
    obtain ⟨rfl, rfl⟩ := hcd
    refine ⟨[], ?_⟩
    simp [splitAux, isLineBreak_cr, List.takeWhile_cons]
  | case4 acc ch hbr d cs hcd hne ih =>
    obtain ⟨rfl, rfl⟩ := hcd
    refine ⟨splitAux [] cs, ?_⟩
    simp [splitAux, isLineBreak_cr, hne, List.takeWhile_cons]
  | case5 acc ch hbr d cs hncd ih =>
    refine ⟨splitAux [] (d :: cs), ?_⟩
    rw [splitAux.eq_def]
    simp [hbr, hncd, List.takeWhile_cons]
  | case6 acc ch cs hnbr ih =>
    obtain ⟨t, ht⟩ := ih
    refine ⟨t, ?_⟩
    rw [splitAux.eq_def]
    simp only [hnbr, Bool.false_eq_true, if_false]
    rw [ht]
    simp [List.takeWhile_cons, hnbr]

theorem pyLines_ne_nil : ∀ (x : List Char), x ≠ [] → stripChars x = x → pyLines x ≠ [] := by
  intro x hx hsx
  obtain ⟨c, cs, rfl⟩ : ∃ c cs, x = c :: cs := by
    cases x with
    | nil => exact absurd rfl hx
    | cons c cs => exact ⟨c, cs, rfl⟩
  have hcsp : isPySpace c = false := stripChars_head (c :: cs) c cs hsx
  have hcbr : isLineBreak c = false := sp_false_br_false c hcsp
  obtain ⟨t, ht⟩ := splitAux_head_struct [] (c :: cs)
  have hline : (c :: cs.takeWhile (fun d => !isLineBreak d)) ∈ splitlinesPy (c :: cs) := by
    rw [splitlinesPy_cons, ht]
    simp [List.takeWhile_cons, hcbr]
  have hstrip : stripChars (c :: cs.takeWhile (fun d => !isLineBreak d)) ≠ [] := by
    intro hnil
    rw [stripChars, List.dropWhile_cons] at hnil
    simp only [hcsp, Bool.false_eq_true, if_false] at hnil
    rw [dropTrail_eq_nil] at hnil
    have := hnil c (by simp)
    rw [this] at hcsp
    simp at hcsp
  intro hempty
  have : stripChars (c :: cs.takeWhile (fun d => !isLineBreak d)) ∈ pyLines (c :: cs) := by
    simp only [pyLines, List.mem_filterMap]
    refine ⟨_, hline, ?_⟩
    simp [hstrip]
  rw [hempty] at this
  simp at this

theorem addLines_mem_mono : ∀ (lines b : List (List Char)) (x : List Char),
    x ∈ b → x ∈ addLines b lines := by
  intro lines
  induction lines with
  | nil => intro b x h; exact h
  | cons l ls ih =>
    intro b x h
    rw [addLines, List.foldl_cons]
    by_cases hl : l ∈ b
    · simp only [hl, if_true]
      exact ih b x h
    · simp only [hl, if_false]
      exact ih (b ++ [l]) x (by simp [h])

theorem addLines_mem_of_mem : ∀ (lines b : List (List Char)) (x : List Char),
    x ∈ lines → x ∈ addLines b lines := by
  intro lines
  induction lines with
  | nil => intro b x h; simp at h
  | cons l ls ih =>
    intro b x h
    rw [addLines, List.foldl_cons]
    rcases List.mem_cons.mp h with rfl | h2
    · by_cases hl : x ∈ b
      · simp only [hl, if_true]
        exact addLines_mem_mono ls b x hl
      · simp only [hl, if_false]
        exact addLines_mem_mono ls (b ++ [x]) x (by simp)
    · by_cases hl : l ∈ b
      · simp only [hl, if_true]
        exact ih b x h2
      · simp only [hl, if_false]
        exact ih (b ++ [l]) x h2

theorem addLines_sub : ∀ (lines b : List (List Char)) (x : List Char),
    x ∈ addLines b lines → x ∈ b ∨ x ∈ lines := by
  intro lines
  induction lines with
  | nil => intro b x h; exact Or.inl h
  | cons l ls ih =>
    intro b x h
    rw [addLines, List.foldl_cons] at h
    by_cases hl : l ∈ b
    · simp only [hl, if_true] at h
      rcases ih b x h with h2 | h2
      · exact Or.inl h2
      · exact Or.inr (by simp [h2])
    · simp only [hl, if_false] at h
      rcases ih (b ++ [l]) x h with h2 | h2
      · rcases List.mem_append.mp h2 with h3 | h3
        · exact Or.inl h3
        · exact Or.inr (by simpa using Or.inl (by simpa using h3))
      · exact Or.inr (by simp [h2])

theorem addLines_ne_nil : ∀ (lines b : List (List Char)), b ≠ [] ∨ lines ≠ [] →
    addLines b lines ≠ [] := by
  intro lines b h
  rcases h with h | h
  · obtain ⟨x, hx⟩ := List.exists_mem_of_ne_nil b h
    exact List.ne_nil_of_mem (addLines_mem_mono lines b x hx)
  · obtain ⟨x, hx⟩ := List.exists_mem_of_ne_nil lines h
    exact List.ne_nil_of_mem (addLines_mem_of_mem lines b x hx)

theorem addLines_nodup : ∀ (lines b : List (List Char)), b.Nodup →
    (addLines b lines).Nodup := by
  intro lines
  induction lines with
  | nil => intro b h; exact h
  | cons l ls ih =>
    intro b h
    rw [addLines, List.foldl_cons]
    by_cases hl : l ∈ b
    · simp only [hl, if_true]
      exact ih b h
    · simp only [hl, if_false]
      refine ih (b ++ [l]) ?_
      rw [List.nodup_append]
      refine ⟨h, List.nodup_singleton l, ?_⟩
      intro a ha hal
      rw [List.mem_singleton] at hal
      subst hal
      exact hl ha

theorem addLines_disjoint : ∀ (lines b : List (List Char)), lines.Nodup →
    (∀ x ∈ lines, x ∉ b) → addLines b lines = b ++ lines := by
  intro lines
  induction lines with
  | nil => intro b _ _; simp [addLines]
  | cons l ls ih =>
    intro b hnd hdis
    rw [addLines, List.foldl_cons]
    have hl : l ∉ b := hdis l (by simp)
    simp only [hl, if_false]
    have := ih (b ++ [l]) (by simpa using hnd.sublist (List.sublist_cons_self l ls)) ?_
    · rw [addLines] at this
      rw [this]
      simp
    · intro x hx
      simp only [List.mem_append, List.mem_singleton]
      rintro (hxb | rfl)
      · exact hdis x (by simp [hx]) hxb
      · exact absurd hx (by simpa using (List.nodup_cons.mp hnd).1)

theorem addLines_nil_nodup : ∀ (lines : List (List Char)), lines.Nodup →
    addLines [] lines = lines := by
  intro lines h
  rw [addLines_disjoint lines [] h (by simp)]
  simp


theorem lookupOd_odInsert_self : ∀ (od : List (List Char × List (List Char)))
    (k : List Char) (lines : List (List Char)),
    lookupOd (odInsert od k lines) k = some (addLines ((lookupOd od k).getD []) lines) := by
  intro od
  induction od with
  | nil => intro k lines; simp [odInsert, lookupOd]
  | cons p rest ih =>
    intro k lines
    obtain ⟨k1, b1⟩ := p
    rw [odInsert]
    by_cases hk : k1 = k
    · subst hk
      simp [lookupOd]
    · simp only [hk, if_false]
      simp only [lookupOd, hk, if_false]
      exact ih k lines

theorem lookupOd_odInsert_other : ∀ (od : List (List Char × List (List Char)))
    (k k2 : List Char) (lines : List (List Char)), k2 ≠ k →
    lookupOd (odInsert od k lines) k2 = lookupOd od k2 := by
  intro od
  induction od with
  | nil =>
    intro k k2 lines h
    simp only [odInsert, lookupOd]
    rw [if_neg (fun hh => h hh.symm)]
  | cons p rest ih =>
    intro k k2 lines h
    obtain ⟨k1, b1⟩ := p
    rw [odInsert]
    by_cases hk : k1 = k
    · subst hk
      simp only [lookupOd]
      rw [if_neg (fun hh => h hh.symm), if_neg (fun hh => h hh.symm)]
    · simp only [hk, if_false]
      simp only [lookupOd]
      by_cases hk2 : k1 = k2
      · simp [hk2]
      · simp only [hk2, if_false]
        exact ih k k2 lines h

theorem mem_of_lookupOd : ∀ (od : List (List Char × List (List Char)))
    (k : List Char) (b : List (List Char)), lookupOd od k = some b → (k, b) ∈ od := by
  intro od
  induction od with
  | nil => intro k b h; simp [lookupOd] at h
  | cons p rest ih =>
    intro k b h
    obtain ⟨k1, b1⟩ := p
    rw [lookupOd] at h
    by_cases hk : k1 = k
    · subst hk
      rw [if_pos rfl] at h
      have hb : b1 = b := by simpa using h
      subst hb
      exact List.mem_cons_self _ _
    · simp only [hk, if_false] at h
      exact List.mem_cons_of_mem _ (ih k b h)

theorem lookupOd_none_iff : ∀ (od : List (List Char × List (List Char))) (k : List Char),
    lookupOd od k = none ↔ k ∉ od.map Prod.fst := by
  intro od
  induction od with
  | nil => intro k; simp [lookupOd]
  | cons p rest ih =>
    intro k
    obtain ⟨k1, b1⟩ := p
    rw [lookupOd]
    by_cases hk : k1 = k
    · subst hk
      rw [if_pos rfl]
      exact iff_of_false (by simp) (fun hmem => hmem (by simp))
    · simp only [hk, if_false]
      rw [ih k]
      simp only [List.map_cons, List.mem_cons]
      constructor
      · intro hnot hor
        rcases hor with heq | hmem
        · exact hk heq.symm
        · exact hnot hmem
      · intro hnot hmem
        exact hnot (Or.inr hmem)

theorem odInsert_keys_some : ∀ (od : List (List Char × List (List Char)))
    (k : List Char) (lines : List (List Char)), (lookupOd od k).isSome = true →
    (odInsert od k lines).map Prod.fst = od.map Prod.fst := by
  intro od
  induction od with
  | nil => intro k lines h; simp [lookupOd] at h
  | cons p rest ih =>
    intro k lines h
    obtain ⟨k1, b1⟩ := p
    rw [odInsert]
    by_cases hk : k1 = k
    · subst hk; simp
    · simp only [hk, if_false]
      rw [lookupOd] at h
      simp only [hk, if_false] at h
      simp [ih k lines h]

theorem odInsert_keys_none : ∀ (od : List (List Char × List (List Char)))
    (k : List Char) (lines : List (List Char)), lookupOd od k = none →
    (odInsert od k lines).map Prod.fst = od.map Prod.fst ++ [k] := by
  intro od
  induction od with
  | nil => intro k lines _; simp [odInsert]
  | cons p rest ih =>
    intro k lines h
    obtain ⟨k1, b1⟩ := p
    rw [lookupOd] at h
    by_cases hk : k1 = k
    · simp [hk] at h
    · simp only [hk, if_false] at h
      rw [odInsert]
      simp only [hk, if_false]
      simp [ih k lines h]

theorem odInsert_mem_char : ∀ (od : List (List Char × List (List Char)))
    (k : List Char) (lines : List (List Char)) (p : List Char × List (List Char)),
    p ∈ odInsert od k lines → p ∈ od ∨
      (∃ b, lookupOd od k = some b ∧ p = (k, addLines b lines)) ∨
      (lookupOd od k = none ∧ p = (k, addLines [] lines)) := by
  intro od
  induction od with
  | nil =>
    intro k lines p h
    simp [odInsert] at h
    right; right
    exact ⟨rfl, h⟩
  | cons q rest ih =>
    intro k lines p h
    obtain ⟨k1, b1⟩ := q
    rw [odInsert] at h
    by_cases hk : k1 = k
    · subst hk
      simp only [if_true] at h
      rcases List.mem_cons.mp h with rfl | h2
      · right; left
        exact ⟨b1, by simp [lookupOd], rfl⟩
      · exact Or.inl (List.mem_cons_of_mem _ h2)
    · simp only [hk, if_false] at h
      rcases List.mem_cons.mp h with rfl | h2
      · exact Or.inl (by simp)
      · rcases ih k lines p h2 with h3 | h3 | h3
        · exact Or.inl (List.mem_cons_of_mem _ h3)
        · right; left
          obtain ⟨b, hb, hp⟩ := h3
          exact ⟨b, by rw [lookupOd]; simp [hk, hb], hp⟩
        · right; right
          exact ⟨by rw [lookupOd]; simp [hk, h3.1], h3.2⟩


theorem odInsert_append : ∀ (od : List (List Char × List (List Char)))
    (k : List Char) (lines : List (List Char)), lookupOd od k = none →
    odInsert od k lines = od ++ [(k, addLines [] lines)] := by
  intro od
  induction od with
  | nil => intro k lines _; rfl
  | cons p rest ih =>
    intro k lines h
    obtain ⟨k1, b1⟩ := p
    rw [lookupOd] at h
    by_cases hk : k1 = k
    · simp [hk] at h
    · simp only [hk, if_false] at h
      rw [odInsert]
      simp only [hk, if_false]
      rw [ih k lines h]
      simp

theorem mergeStep_inv : ∀ (od : List (List Char × List (List Char))) (item : String × String),
    InvOd od → InvOd (mergeStep od item) := by
  intro od item hinv
  by_cases hskip : stripChars item.1.data = [] ∨ stripChars item.2.data = []
  · rw [mergeStep, if_pos hskip]
    exact hinv
  · rw [mergeStep, if_neg hskip]
    push_neg at hskip
    obtain ⟨ht, hx⟩ := hskip
    refine ⟨?_, ?_⟩
    · cases hlk : lookupOd od (stripChars item.1.data) with
      | some b =>
        rw [odInsert_keys_some od _ _ (by rw [hlk]; rfl)]
        exact hinv.1
      | none =>
        rw [odInsert_keys_none od _ _ hlk]
        rw [List.nodup_append]
        refine ⟨hinv.1, List.nodup_singleton _, ?_⟩
        intro a ha hal
        rw [List.mem_singleton] at hal
        rw [hal] at ha
        exact (lookupOd_none_iff od _).mp hlk ha
    · intro p hp
      rcases odInsert_mem_char od _ _ p hp with hmem | ⟨b, hb, rfl⟩ | ⟨hnone, rfl⟩
      · exact hinv.2 p hmem
      · have hgb := hinv.2 _ (mem_of_lookupOd od _ b hb)
        refine ⟨stripChars_idem _, ht, ?_, ?_, ?_⟩
        · exact addLines_ne_nil _ b (Or.inl hgb.2.2.1)
        · exact addLines_nodup _ b hgb.2.2.2.1
        · intro l hl
          rcases addLines_sub _ b l hl with h | h
          · exact hgb.2.2.2.2 l h
          · exact pyLines_good _ l h
      · refine ⟨stripChars_idem _, ht, ?_, ?_, ?_⟩
        · exact addLines_ne_nil _ []
            (Or.inr (pyLines_ne_nil _ hx (stripChars_idem _)))
        · exact addLines_nodup _ [] List.nodup_nil
        · intro l hl
          rcases addLines_sub _ [] l hl with h | h
          · simp at h
          · exact pyLines_good _ l h

theorem foldl_mergeStep_inv : ∀ (items : List (String × String))
    (od : List (List Char × List (List Char))), InvOd od →
    InvOd (items.foldl mergeStep od) := by
  intro items
  induction items with
  | nil => intro od h; exact h
  | cons it its ih =>
    intro od h
    rw [List.foldl_cons]
    exact ih (mergeStep od it) (mergeStep_inv od it h)

theorem merge_fold_inv : ∀ (items : List (String × String)),
    InvOd (items.foldl mergeStep []) := by
  intro items
  exact foldl_mergeStep_inv items [] ⟨List.nodup_nil, by simp⟩


theorem filterMap_strip_good : ∀ (c : List (List Char)), (∀ x ∈ c, goodLine x) →
    c.filterMap (fun l => let l2 := stripChars l; if l2 = [] then none else some l2) = c := by
  intro c
  induction c with
  | nil => intro _; rfl
  | cons y ys ih =>
    intro hgood
    rw [List.filterMap_cons]
    have hg := hgood y (by simp)
    simp only [hg.2.1, hg.1, if_false]
    rw [ih (fun x hx => hgood x (by simp [hx]))]

theorem pyLines_joinNL : ∀ (b : List (List Char)), b ≠ [] → (∀ x ∈ b, goodLine x) →
    pyLines (joinNL b) = b := by
  intro b hb hx
  rw [pyLines]
  rw [splitlines_joinNL b hb (fun x hxm => ⟨(hx x hxm).1, (hx x hxm).2.2⟩)]
  exact filterMap_strip_good b hx

theorem lookupOd_append_single : ∀ (acc : List (List Char × List (List Char)))
    (k k2 : List Char) (b : List (List Char)), lookupOd acc k2 = none → k2 ≠ k →
    lookupOd (acc ++ [(k, b)]) k2 = none := by
  intro acc
  induction acc with
  | nil =>
    intro k k2 b _ hne
    rw [List.nil_append, lookupOd]
    rw [if_neg (fun hh => hne hh.symm)]
    rfl
  | cons p rest ih =>
    intro k k2 b h hne
    obtain ⟨k1, b1⟩ := p
    rw [lookupOd] at h
    by_cases hk : k1 = k2
    · simp [hk] at h
    · simp only [hk, if_false] at h
      rw [List.cons_append, lookupOd]
      simp only [hk, if_false]
      exact ih k k2 b h hne

theorem merge_fold_identity : ∀ (od acc : List (List Char × List (List Char))),
    (∀ p ∈ od, goodEntry p) → (od.map Prod.fst).Nodup →
    (∀ k ∈ od.map Prod.fst, lookupOd acc k = none) →
    (od.map (fun p => ((⟨p.1⟩ : String), (⟨joinNL p.2⟩ : String)))).foldl mergeStep acc =
      acc ++ od := by
  intro od
  induction od with
  | nil => intro acc _ _ _; simp
  | cons p rest ih =>
    intro acc hgood hnd hnone
    obtain ⟨k, b⟩ := p
    rw [List.map_cons, List.foldl_cons]
    have hg := hgood (k, b) (by simp)
    have hb_ne : b ≠ [] := hg.2.2.1
    have hlines : ∀ x ∈ b, goodLine x := hg.2.2.2.2
    have hstep : mergeStep acc ((⟨k⟩ : String), (⟨joinNL b⟩ : String)) = acc ++ [(k, b)] := by
      simp only [mergeStep, mk_data]
      have hsk : stripChars k = k := hg.1
      have hsj : stripChars (joinNL b) = joinNL b := stripChars_joinNL b hb_ne hlines
      rw [hsk, hsj]
      have hcond : ¬(k = [] ∨ joinNL b = []) := by
        rintro (h | h)
        · exact hg.2.1 h
        · exact joinNL_ne_nil b hb_ne (fun x hx => (hlines x hx).1) h
      rw [if_neg hcond]
      rw [pyLines_joinNL b hb_ne hlines]
      rw [odInsert_append acc k b (hnone k (by simp))]
      rw [addLines_nil_nodup b hg.2.2.2.1]
    rw [hstep]
    have hndr : (rest.map Prod.fst).Nodup := (List.nodup_cons.mp (by simpa using hnd)).2
    have hknotin : k ∉ rest.map Prod.fst := (List.nodup_cons.mp (by simpa using hnd)).1
    rw [ih (acc ++ [(k, b)]) (fun q hq => hgood q (by simp [hq])) hndr ?_]
    · simp
    · intro k2 hk2
      refine lookupOd_append_single acc k k2 b (hnone k2 (by simp [hk2])) ?_
      intro hk2k
      rw [hk2k] at hk2
      exact hknotin hk2

/-- C8: `merge_items_by_time` is idempotent — applying it to its own output
returns that output unchanged. -/
theorem c8_merge_idempotent : ∀ items : List (String × String),
    merge_items_by_time (merge_items_by_time items) = merge_items_by_time items := by
  intro items
  have hinv := merge_fold_inv items
  have hm : merge_items_by_time items = (items.foldl mergeStep []).map
      (fun p => ((⟨p.1⟩ : String), (⟨joinNL p.2⟩ : String))) := rfl
  rw [hm]
  have hid := merge_fold_identity (items.foldl mergeStep []) [] hinv.2 hinv.1
    (fun k _ => rfl)
  rw [merge_items_by_time]
  rw [hid]
  simp


theorem foldl_bucket_mono : ∀ (items : List (String × String))
    (od : List (List Char × List (List Char))) (k : List Char) (x : List Char),
    x ∈ (lookupOd od k).getD [] → x ∈ (lookupOd (items.foldl mergeStep od) k).getD [] := by
  intro items
  induction items with
  | nil => intro od k x h; exact h
  | cons it its ih =>
    intro od k x h
    rw [List.foldl_cons]
    refine ih (mergeStep od it) k x ?_
    by_cases hskip : stripChars it.1.data = [] ∨ stripChars it.2.data = []
    · rw [mergeStep, if_pos hskip]
      exact h
    · rw [mergeStep, if_neg hskip]
      by_cases hk : stripChars it.1.data = k
      · rw [hk, lookupOd_odInsert_self]
        rw [Option.getD_some]
        exact addLines_mem_mono _ _ x h
      · rw [lookupOd_odInsert_other od _ k _ (fun hh => hk hh.symm)]
        exact h

theorem foldl_item_in_bucket : ∀ (items : List (String × String))
    (od : List (List Char × List (List Char))) (tm tx : String) (l : List Char),
    (tm, tx) ∈ items → stripChars tm.data ≠ [] → l ∈ pyLines (stripChars tx.data) →
    l ∈ (lookupOd (items.foldl mergeStep od) (stripChars tm.data)).getD [] := by
  intro items
  induction items with
  | nil => intro od tm tx l h; simp at h
  | cons it its ih =>
    intro od tm tx l hmem htm hl
    rw [List.foldl_cons]
    rcases List.mem_cons.mp hmem with heq | htail
    · subst heq
      refine foldl_bucket_mono its (mergeStep od (tm, tx)) _ l ?_
      by_cases hx : stripChars tx.data = []
      · rw [hx] at hl
        simp [pyLines, splitlinesPy] at hl
      · rw [mergeStep, if_neg ?_]
        · rw [lookupOd_odInsert_self, Option.getD_some]
          exact addLines_mem_of_mem _ _ l hl
        · rintro (h | h)
          · exact htm h
          · exact hx h
    · exact ih (mergeStep od it) tm tx l htail htm hl

/-- C1 (amended): when a time group contains the placeholder `"нет пары"`,
the merged entry for that time KEEPS the placeholder line, alongside every
line of every item of the group (the code performs no placeholder
suppression); a group whose only content is the placeholder keeps it. -/
theorem c1_placeholder_kept : ∀ (items : List (String × String)) (tm : String),
    stripChars tm.data ≠ [] → (tm, ("нет пары" : String)) ∈ items →
    ∃ txt : String, ((⟨stripChars tm.data⟩ : String), txt) ∈ merge_items_by_time items ∧
      "нет пары".data ∈ splitlinesPy txt.data ∧
      ∀ (tx : String), (tm, tx) ∈ items →
        ∀ l ∈ pyLines (stripChars tx.data), l ∈ splitlinesPy txt.data := by
  intro items tm htm hmem
  have hpll : "нет пары".data ∈ pyLines (stripChars ("нет пары" : String).data) := by decide
  have hl := foldl_item_in_bucket items [] tm "нет пары" ("нет пары".data) hmem htm hpll
  cases hlk : lookupOd (items.foldl mergeStep []) (stripChars tm.data) with
  | none =>
    rw [hlk] at hl
    simp at hl
  | some b =>
    rw [hlk] at hl
    rw [Option.getD_some] at hl
    have hinv := merge_fold_inv items
    have hgb := hinv.2 (stripChars tm.data, b) (mem_of_lookupOd _ _ b hlk)
    have hsplit : splitlinesPy (joinNL b) = b := splitlines_joinNL b hgb.2.2.1
      (fun x hx => ⟨(hgb.2.2.2.2 x hx).1, (hgb.2.2.2.2 x hx).2.2⟩)
    refine ⟨⟨joinNL b⟩, ?_, ?_, ?_⟩
    · show ((⟨stripChars tm.data⟩ : String), (⟨joinNL b⟩ : String)) ∈
        (items.foldl mergeStep []).map
          (fun p => ((⟨p.1⟩ : String), (⟨joinNL p.2⟩ : String)))
      exact List.mem_map.mpr ⟨(stripChars tm.data, b), mem_of_lookupOd _ _ b hlk, rfl⟩
    · rw [mk_data, hsplit]
      exact hl
    · intro tx htx l hlx
      have hmem2 := foldl_item_in_bucket items [] tm tx l htx htm hlx
      rw [hlk] at hmem2
      rw [Option.getD_some] at hmem2
      rw [mk_data, hsplit]
      exact hmem2

/-- Witness for C1: the mixed placeholder-plus-real group, through the
theorem itself. -/
theorem c1_placeholder_kept_witness :
    ∃ txt : String, ((⟨stripChars ("8:00" : String).data⟩ : String), txt) ∈
        merge_items_by_time [("8:00", "нет пары"), ("8:00", "Algebra")] ∧
      "нет пары".data ∈ splitlinesPy txt.data ∧
      ∀ (tx : String), (("8:00" : String), tx) ∈
          [(("8:00" : String), ("нет пары" : String)), ("8:00", "Algebra")] →
        ∀ l ∈ pyLines (stripChars tx.data), l ∈ splitlinesPy txt.data :=
  c1_placeholder_kept [("8:00", "нет пары"), ("8:00", "Algebra")] "8:00"
    (by decide) (by decide)

end IGBot
